import Mathlib

/-!
# Verification of the vortex-core control plane (crates/vortex-core)

Shallow embedding of the graph compiler, scheduler, incremental planner,
memory arbiter and shared-memory status table of the `vortex-core` crate,
together with proofs and refutations of the frozen specification claims.

Modelling conventions:
* Rust `String` is Lean `String`; the Rust `Ord` on `String`
  (lexicographic on UTF-8 bytes) is modelled by `strLe` below, which is
  lexicographic on code points — on UTF-8 the two orders coincide.
* Rust `HashMap<K, V>` is an association list `List (K × V)`; one list
  order stands for one iteration order of the hash map.  Theorems that
  depend on map semantics carry a `Nodup` hypothesis on the keys.
* Rust `HashSet<T>` is a `List T` used for membership only.
* Machine integers (`u32`, `u64`, `usize`) are `Nat`; wherever the source
  is explicit about overflow (`saturating_add`) the model is explicit too.
* SHA-256 (the external `sha2` crate) is an arbitrary function
  `sha : List Nat → List Nat` from the hashed byte buffer to the digest;
  everything proven about hashing is parametric in `sha`.
* `serde_json::Value::to_string()` (whose map type is a sorted `BTreeMap`,
  hence canonical) is modelled by storing the serialized canonical JSON
  text of a parameter value directly.
-/

/-! ## Byte-level strings -/

/-- The code points of a string; on UTF-8 sources the induced
lexicographic order equals the Rust byte-wise `Ord` on `String`. -/
def strBytes (s : String) : List Nat := s.data.map Char.toNat

/-- Lexicographic comparison of byte lists (`true` iff first ≤ second). -/
def bytesLe : List Nat → List Nat → Bool
  | [], _ => true
  | _ :: _, [] => false
  | a :: as, b :: bs => if a < b then true else if a = b then bytesLe as bs else false

/-- Model of Rust `String` `Ord` (`s <= t`). -/
def strLe (s t : String) : Bool := bytesLe (strBytes s) (strBytes t)

/-- UTF-8 bytes of a string (`str::as_bytes`), via the core encoder. -/
def utf8 (s : String) : List Nat := (s.data.flatMap String.utf8EncodeChar).map UInt8.toNat

/-! ## Association lists standing for `HashMap` -/

/-- `HashMap::get` on the association-list model: first matching key. -/
def look {β : Type} : List (String × β) → String → Option β
  | [], _ => none
  | (k, v) :: rest, key => if k = key then some v else look rest key

/-- The key list of an association list (`HashMap::keys`). -/
def keysOf {β : Type} (l : List (String × β)) : List String := l.map Prod.fst

/-! ## Graph data model (`graph.rs`) -/

/-- A parameter value: the domain tag and the canonical JSON serialization
of the `serde_json::Value` (see modelling conventions). -/
structure ParamValue where
  param_type : String
  value : String
deriving DecidableEq, Repr

/-- `graph.rs::Node` (the `ui` and cached-connection fields do not figure
in any claim and are omitted; they do not affect the hash or the order). -/
structure Node where
  id : String
  op_type : String
  params : List (String × ParamValue)
deriving DecidableEq, Repr

/-- `graph.rs::Link` — `source`/`target` are `(node_id, port_name)`. -/
structure Link where
  source : String × String
  target : String × String
deriving DecidableEq, Repr

/-- `graph.rs::GraphDSL` (schema/version/meta omitted: no claim mentions
them and no modelled operation reads them). -/
structure GraphDSL where
  nodes : List (String × Node)
  links : List Link
deriving DecidableEq, Repr

/-- `GraphDSL::get_parents`: sources of the links whose target node is
`node_id`, in the stored order of the `links` list. -/
def getParents (g : GraphDSL) (node_id : String) : List String :=
  (g.links.filter (fun l => l.target.1 = node_id)).map (fun l => l.source.1)

/-- `GraphDSL::get_children`: targets of the links whose source node is
`node_id`, in the stored order of the `links` list. -/
def getChildren (g : GraphDSL) (node_id : String) : List String :=
  (g.links.filter (fun l => l.source.1 = node_id)).map (fun l => l.target.1)

/-- One link step `u → v` of the graph (edge relation on node ids). -/
def LinkStep (g : GraphDSL) (u v : String) : Prop :=
  ∃ l ∈ g.links, l.source.1 = u ∧ l.target.1 = v

/-- A graph is acyclic when no id reaches itself through one or more links. -/
def Acyclic (g : GraphDSL) : Prop :=
  ∀ s : String, ¬ Relation.TransGen (LinkStep g) s s

/-! ## Node hashing (`Node::compute_hash`, graph.rs lines 304–326) -/

/-- The exact byte buffer `Node::compute_hash` feeds to the SHA-256 hasher:
`op_type` bytes, then for each parameter key in sorted order the key bytes
followed by the serialized value bytes, then the parent hashes. -/
def Node.hashInput (n : Node) (parentHashes : List (List Nat)) : List Nat :=
  utf8 n.op_type
    ++ ((List.insertionSort (fun a b => strLe a b) (keysOf n.params)).flatMap
          (fun key =>
            utf8 key ++ (match look n.params key with
                         | some param => utf8 param.value
                         | none => [])))
    ++ parentHashes.flatten

/-- `Node::compute_hash`, parametric in the SHA-256 function `sha`. -/
def Node.computeHash (sha : List Nat → List Nat) (n : Node)
    (parentHashes : List (List Nat)) : List Nat :=
  sha (n.hashInput parentHashes)

/-- Loop body of `Scheduler::compute_all_hashes` (scheduler.rs 193–216):
walk the execution order, look the node up, collect the already-computed
parent hashes (`filter_map`: silently skipping parents without hashes),
hash, and record the result. -/
def computeAllHashesAux (sha : List Nat → List Nat) (g : GraphDSL) :
    List String → List (String × List Nat) → List (String × List Nat)
  | [], hashes => hashes
  | node_id :: rest, hashes =>
    match look g.nodes node_id with
    | some node =>
      computeAllHashesAux sha g rest
        (hashes ++ [(node_id,
          Node.computeHash sha node
            ((getParents g node_id).filterMap (fun pid => look hashes pid)))])
    | none => computeAllHashesAux sha g rest hashes

/-- `Scheduler::compute_all_hashes`. -/
def computeAllHashes (sha : List Nat → List Nat) (g : GraphDSL)
    (execution_order : List String) : List (String × List Nat) :=
  computeAllHashesAux sha g execution_order []

/-! ## Incremental planner (`Scheduler::compute_dirty_set`, scheduler.rs 219–252) -/

/-- The per-node `hash_changed` test of `compute_dirty_set`: changed when
both hashes exist and differ, dirty when either is missing. -/
def hashChangedB (current previous : List (String × List Nat)) (node_id : String) : Bool :=
  match look current node_id, look previous node_id with
  | some curr, some prev => decide (curr ≠ prev)
  | _, _ => true

/-- One iteration of the `compute_dirty_set` loop: a node joins the dirty
set when its hash changed or some parent is already dirty. -/
def dirtyStep (g : GraphDSL) (current_hashes previous_hashes : List (String × List Nat))
    (dirty : List String) (node_id : String) : List String :=
  let hash_changed := hashChangedB current_hashes previous_hashes node_id
  let parent_dirty := (getParents g node_id).any (fun pid => pid ∈ dirty)
  if hash_changed || parent_dirty then dirty ++ [node_id] else dirty

/-- `Scheduler::compute_dirty_set`: one pass over the execution order
accumulating the dirty set, then the order filtered to dirty members. -/
def computeDirtySet (g : GraphDSL) (execution_order : List String)
    (current_hashes previous_hashes : List (String × List Nat)) : List String :=
  let dirty := execution_order.foldl (dirtyStep g current_hashes previous_hashes) []
  execution_order.filter (fun id => id ∈ dirty)

/-! ## Memory arbiter (`arbiter.rs`) -/

/-- `arbiter.rs::TensorInfo`. -/
structure TensorInfo where
  id : String
  size_bytes : Nat
  dtype : String
  shape : List Nat
  last_used_step : Nat
  next_use_step : Option Nat
deriving DecidableEq, Repr

/-- `arbiter.rs::Arbiter`.  The `f64` cost multipliers of the source are
the exact rationals 2.5, 1.5, 3.0, 4.0, 1.2, modelled as numerator /
denominator pairs of naturals. -/
structure Arbiter where
  vram_limit : Nat
  cost_table : List (String × (Nat × Nat))
  tensor_cache : List (String × TensorInfo)
  current_step : Nat
deriving DecidableEq, Repr

/-- `Arbiter::new(vram_limit_mb)` with the default cost table. -/
def Arbiter.new (vram_limit_mb : Nat) : Arbiter :=
  { vram_limit := vram_limit_mb * 1024 * 1024
    cost_table :=
      [ ("Loader::Checkpoint", (5, 2))
      , ("Loader::Image", (3, 2))
      , ("Sampler::KSampler", (3, 1))
      , ("Decoder::VAE", (4, 1))
      , ("Encoder::CLIP", (6, 5)) ]
    tensor_cache := []
    current_step := 0 }

/-- `usize::MAX` / `u64::MAX` (the source runs on a 64-bit target). -/
def USIZE_MAX : Nat := 2 ^ 64 - 1

/-- `Arbiter::estimate_operation_cost`: peak = ⌊output_bytes · multiplier⌋,
default multiplier 1.5 for unknown operation types.  (The `f64` product of
the source is exact for the table's rationals and in-range sizes.) -/
def estimateOperationCost (arb : Arbiter) (op_type : String) (output_bytes : Nat) : Nat :=
  let m := (look arb.cost_table op_type).getD (3, 2)
  output_bytes * m.1 / m.2

/-- `ArbiterTrait::predict_usage` for `Arbiter` (arbiter.rs 196–200): a
flat 100 MiB per plan node, ignoring node metadata and the cost table. -/
def predictUsage (plan : List String) : Nat :=
  plan.length * (100 * 1024 * 1024)

/-- Greedy selection loop of `Arbiter::select_eviction_candidates`: walk
the scored list, stop once `freed ≥ needed`, re-look each id up in the
cache and accumulate its size. -/
def greedyEvict (cache : List (String × TensorInfo)) (needed : Nat) :
    List (String × Nat) → Nat → List String
  | [], _ => []
  | (tensor_id, _) :: rest, freed =>
    if needed ≤ freed then []
    else
      match look cache tensor_id with
      | some info => tensor_id :: greedyEvict cache needed rest (freed + info.size_bytes)
      | none => greedyEvict cache needed rest freed

/-- `Arbiter::select_eviction_candidates` (arbiter.rs 120–153): score each
cached tensor by `next_use_step` (absent ⇒ `usize::MAX`), stable-sort by
score descending, then greedily take until `needed_bytes` is covered.
The `plan` argument is unused, exactly as in the source. -/
def selectEvictionCandidates (arb : Arbiter) (needed_bytes : Nat)
    (_plan : List String) : List String :=
  let scored := arb.tensor_cache.map
    (fun e => (e.1, e.2.next_use_step.getD USIZE_MAX))
  let sorted := List.insertionSort
    (fun a b : String × Nat => b.2 ≤ a.2) scored
  greedyEvict arb.tensor_cache needed_bytes sorted 0

/-- `ArbiterTrait::plan_eviction` for `Arbiter` (ignores `current_vram`). -/
def planEviction (arb : Arbiter) (_current_vram needed : Nat)
    (plan : List String) : List String :=
  selectEvictionCandidates arb needed plan

/-- The error enum `VortexError` (error.rs), restricted to the variants
the modelled operations can produce. -/
inductive VortexError where
  | CycleDetected (nodes : List String)
  | ResourceExhausted (requested_mb limit_mb : Nat)
deriving DecidableEq, Repr

/-- Total cached size of an eviction list as `prepare_execution` measures
it: `filter_map` through the cache, summing `size_bytes`. -/
def evictableBytes (arb : Arbiter) (evictions : List String) : Nat :=
  ((evictions.filterMap (fun id => look arb.tensor_cache id)).map
    (fun t => t.size_bytes)).sum

/-- `Arbiter::prepare_execution` (arbiter.rs 156–186).  `&self` in the
source: the cache is read, never written — the model is a pure function
of the arbiter.  `saturating_add` is the explicit `min` with `u64::MAX`. -/
def prepareExecution (arb : Arbiter) (plan : List String) (current_vram : Nat) :
    Except VortexError (List String) :=
  let predicted_peak := predictUsage plan
  let total := min (current_vram + predicted_peak) USIZE_MAX
  if total ≤ arb.vram_limit then
    .ok []
  else
    let needed := total - arb.vram_limit
    let evictions := planEviction arb current_vram needed plan
    if evictableBytes arb evictions < needed then
      .error (.ResourceExhausted (total / (1024 * 1024)) (arb.vram_limit / (1024 * 1024)))
    else
      .ok evictions

/-! ## Worker status (`shm.rs`) -/

/-- `shm.rs::WorkerStatus`. -/
inductive WorkerStatus where
  | Idle
  | Busy
  | Dead
  | Booting
deriving DecidableEq, Repr

/-- `impl From<u32> for WorkerStatus` (shm.rs 36–46).  The argument is a
`u32` value (a natural below `2^32`). -/
def WorkerStatus.fromU32 (v : Nat) : WorkerStatus :=
  if v = 0 then .Idle
  else if v = 1 then .Busy
  else if v = 2 then .Dead
  else if v = 3 then .Booting
  else .Dead

/-- `shm.rs::WorkerSlot`, with the atomic fields as plain machine values
(one observed snapshot; each field is a `u32`/`u64` natural). -/
structure WorkerSlot where
  pid : Nat
  status : Nat
  current_job_id : Nat
  last_heartbeat : Nat
deriving DecidableEq, Repr

/-- `WorkerSlot::get_status`: convert the loaded raw status word. -/
def WorkerSlot.getStatus (slot : WorkerSlot) : WorkerStatus :=
  WorkerStatus.fromU32 slot.status

/-! ## Cycle detection by DFS (`GraphDSL::detect_cycles`, graph.rs 140–183)

The Rust recursion carries `visited` / `rec_stack` hash sets and a
`cycle_nodes` vector.  The Lean model threads the same state and uses a
fuel argument for termination; `dfsFuel` exceeds every possible recursion
depth (each nested call marks a previously unvisited id, and every
visited id is a node key or a link target), so the fuel-exhausted branch
is unreachable — `dfs_fuel_adequate` below makes this precise. -/

/-- `HashSet::insert` on the list model. -/
def insertS (x : String) (l : List String) : List String :=
  if x ∈ l then l else x :: l

/-- The mutable DFS state of `detect_cycles`. -/
structure DfsState where
  visited : List String
  recStack : List String
  cycleNodes : List String
deriving DecidableEq, Repr

/-- Every id the DFS can ever visit: the node keys (roots) and the link
targets (children). -/
def dfsCandidates (g : GraphDSL) : List String :=
  keysOf g.nodes ++ g.links.map (fun l => l.target.1)

/-- Fuel bound for the DFS. -/
def dfsFuel (g : GraphDSL) : Nat := (dfsCandidates g).length + 1

/-- The `for child_id in get_children(node_id)` loop body of
`dfs_detect_cycle`: recurse (`next` — the depth-limited DFS) into
unvisited children, recording `node_id` on a propagated hit; report a
cycle on a grey child, recording the child and `node_id`; skip black
children. -/
def dfsChildren (g : GraphDSL) (next : String → DfsState → Bool × DfsState)
    (node_id : String) : List String → DfsState → Bool × DfsState
  | [], st => (false, st)
  | child :: rest, st =>
    if child ∈ st.visited then
      if child ∈ st.recStack then
        (true, { st with cycleNodes := st.cycleNodes ++ [child, node_id] })
      else
        dfsChildren g next node_id rest st
    else
      match next child st with
      | (true, st2) => (true, { st2 with cycleNodes := st2.cycleNodes ++ [node_id] })
      | (false, st2) => dfsChildren g next node_id rest st2

/-- `GraphDSL::dfs_detect_cycle` (graph.rs 158–183): mark the node
visited and grey, walk its children, and un-grey it on a `false` return.
The fuel decreases on every nested call. -/
def dfsDetect (g : GraphDSL) : Nat → String → DfsState → Bool × DfsState
  | 0, _, st => (false, st)
  | fuel + 1, node_id, st =>
    let st1 : DfsState :=
      { st with visited := insertS node_id st.visited
                recStack := insertS node_id st.recStack }
    match dfsChildren g (fun c s => dfsDetect g fuel c s) node_id
        (getChildren g node_id) st1 with
    | (true, st2) => (true, st2)
    | (false, st2) => (false, { st2 with recStack := st2.recStack.erase node_id })

/-- The root loop of `GraphDSL::detect_cycles` (graph.rs 147–153): start a
DFS from every not-yet-visited node key; the first hit returns the
accumulated `cycle_nodes`. -/
def detectCyclesAux (g : GraphDSL) : List String → DfsState → Option (List String)
  | [], _ => none
  | node_id :: rest, st =>
    if node_id ∈ st.visited then detectCyclesAux g rest st
    else
      match dfsDetect g (dfsFuel g) node_id st with
      | (true, st2) => some st2.cycleNodes
      | (false, st2) => detectCyclesAux g rest st2

/-- `GraphDSL::detect_cycles`. -/
def detectCycles (g : GraphDSL) : Except (List String) Unit :=
  match detectCyclesAux g (keysOf g.nodes) ⟨[], [], []⟩ with
  | some nodes => .error nodes
  | none => .ok ()

/-! ## Validation (`GraphDSL::validate`, graph.rs 186–224) -/

/-- `graph.rs::ValidationError`. -/
inductive ValidationError where
  | CycleDetected (nodes : List String)
  | NodeNotFound (node_id : String)
  | DuplicateLink (source target : String × String)
  | TypeMismatch (source_type target_type : String)
  | RequiredInputMissing (node_id port_name : String)
deriving DecidableEq, Repr

/-- Step 2 of `validate`: every link endpoint must be a node key (source
checked before target, first failure wins). -/
def checkLinksExist (g : GraphDSL) : List Link → Option ValidationError
  | [] => none
  | l :: rest =>
    if (look g.nodes l.source.1).isSome then
      if (look g.nodes l.target.1).isSome then checkLinksExist g rest
      else some (.NodeNotFound l.target.1)
    else some (.NodeNotFound l.source.1)

/-- The port quadruple `validate` inserts into its duplicate set. -/
def linkQuad (l : Link) : String × String × String × String :=
  (l.source.1, l.source.2, l.target.1, l.target.2)

/-- Step 3 of `validate`: reject the first link whose port quadruple was
already seen. -/
def checkDuplicateLinks : List Link → List (String × String × String × String) →
    Option ValidationError
  | [], _ => none
  | l :: rest, seen =>
    if linkQuad l ∈ seen then some (.DuplicateLink l.source l.target)
    else checkDuplicateLinks rest (linkQuad l :: seen)

/-- `GraphDSL::validate`: cycles, then dangling endpoints, then duplicate
links. -/
def validate (g : GraphDSL) : Except ValidationError Unit :=
  match detectCycles g with
  | .error nodes => .error (.CycleDetected nodes)
  | .ok _ =>
    match checkLinksExist g g.links with
    | some e => .error e
    | none =>
      match checkDuplicateLinks g.links [] with
      | some e => .error e
      | none => .ok ()

/-! ## Kahn's algorithm

Two variants exist in the source: `GraphDSL::topological_sort`
(graph.rs 227–276, sorted `Vec` used as a stack — `pop()` takes the
lexicographically greatest ready node) and `Scheduler::kahn_sort`
(scheduler.rs 63–117, FIFO `VecDeque`, no sorting).  Both share the same
in-degree bookkeeping, modelled by one loop parametrized by the dequeue
and enqueue disciplines.  The loop consumes one fuel unit per pop; fuel
`|in_degree| + 1` suffices because each popped id is a distinct key
(`kahn_fuel_adequate` below). -/

/-- In-degree map initialisation: every node key at zero. -/
def initZero (ks : List String) : List (String × Nat) := ks.map (fun k => (k, 0))

/-- `*in_degree.entry(k).or_insert(0) += 1` (graph.rs 241). -/
def bump : List (String × Nat) → String → List (String × Nat)
  | [], k => [(k, 1)]
  | (k1, d) :: rest, k =>
    if k1 = k then (k1, d + 1) :: rest else (k1, d) :: bump rest k

/-- `if let Some(d) = in_degree.get_mut(k) { *d += 1 }` (scheduler.rs 74). -/
def bumpIfPresent : List (String × Nat) → String → List (String × Nat)
  | [], _ => []
  | (k1, d) :: rest, k =>
    if k1 = k then (k1, d + 1) :: rest else (k1, d) :: bumpIfPresent rest k

/-- Overwrite the value stored at a present key. -/
def aupdate : List (String × Nat) → String → Nat → List (String × Nat)
  | [], _, _ => []
  | (k1, d) :: rest, k, v =>
    if k1 = k then (k1, v) :: rest else (k1, d) :: aupdate rest k v

/-- `Vec::pop` — remove and return the last element. -/
def popBack (q : List String) : Option (String × List String) :=
  match q.reverse with
  | [] => none
  | x :: rest => some (x, rest.reverse)

/-- `VecDeque::pop_front`. -/
def popFront : List String → Option (String × List String)
  | [] => none
  | x :: xs => some (x, xs)

/-- `queue.push(child); queue.sort();` (graph.rs 261–262). -/
def enqSorted (q : List String) (c : String) : List String :=
  List.insertionSort (fun a b => strLe a b) (q ++ [c])

/-- `queue.push_back(child)` (scheduler.rs 98). -/
def enqBack (q : List String) (c : String) : List String := q ++ [c]

/-- The child-processing loop of one Kahn iteration: decrement every
child's in-degree (when the child is a map key) and enqueue children
whose degree reaches zero. -/
def kahnStep (g : GraphDSL) (enq : List String → String → List String)
    (ind : List (String × Nat)) (q : List String) (node_id : String) :
    List (String × Nat) × List String :=
  (getChildren g node_id).foldl
    (fun st child =>
      match look st.1 child with
      | some deg =>
        let d := deg - 1
        let ind1 := aupdate st.1 child d
        if d = 0 then (ind1, enq st.2 child) else (ind1, st.2)
      | none => st)
    (ind, q)

/-- The main Kahn loop: pop, record, process children; stop when the
queue is empty (or fuel runs out, which adequate fuel makes unreachable).
Returns the final in-degree map and the execution list. -/
def kahnLoop (g : GraphDSL) (deq : List String → Option (String × List String))
    (enq : List String → String → List String) :
    Nat → List (String × Nat) → List String → List String →
    List (String × Nat) × List String
  | 0, ind, _, result => (ind, result)
  | fuel + 1, ind, q, result =>
    match deq q with
    | none => (ind, result)
    | some (node_id, q1) =>
      let s := kahnStep g enq ind q1 node_id
      kahnLoop g deq enq fuel s.1 s.2 (result ++ [node_id])

/-- The initial in-degree map of `GraphDSL::topological_sort`
(`entry().or_insert(0) += 1` over the links). -/
def gInd0 (g : GraphDSL) : List (String × Nat) :=
  g.links.foldl (fun m l => bump m l.target.1) (initZero (keysOf g.nodes))

/-- The initial ready queue of `GraphDSL::topological_sort`: the
zero-degree keys, sorted. -/
def gQ0 (g : GraphDSL) : List String :=
  List.insertionSort (fun a b => strLe a b)
    (((gInd0 g).filter (fun p => p.2 = 0)).map Prod.fst)

/-- The post-validation core of `GraphDSL::topological_sort`: in-degrees
(`entry().or_insert`), the sorted zero-degree queue, and the
sorted-stack loop. -/
def gKahnRun (g : GraphDSL) : List (String × Nat) × List String :=
  kahnLoop g popBack enqSorted ((gInd0 g).length + 1) (gInd0 g) (gQ0 g) []

/-- `GraphDSL::topological_sort`: validate, run Kahn, and reject a short
execution list as a cycle. -/
def topologicalSort (g : GraphDSL) : Except ValidationError (List String) :=
  match validate g with
  | .error e => .error e
  | .ok _ =>
    let result := (gKahnRun g).2
    if result.length = g.nodes.length then .ok result
    else .error (.CycleDetected ["unknown"])

/-- The initial in-degree map of `Scheduler::kahn_sort` (only node keys,
`get_mut` increments). -/
def sInd0 (g : GraphDSL) : List (String × Nat) :=
  g.links.foldl (fun m l => bumpIfPresent m l.target.1) (initZero (keysOf g.nodes))

/-- The initial FIFO queue of `Scheduler::kahn_sort`: zero-degree keys in
map-iteration order. -/
def sQ0 (g : GraphDSL) : List String :=
  ((sInd0 g).filter (fun p => p.2 = 0)).map Prod.fst

/-- The core of `Scheduler::kahn_sort`: in-degrees over node keys only
(`get_mut`), FIFO queue in map-iteration order, no sorting. -/
def sKahnRun (g : GraphDSL) : List (String × Nat) × List String :=
  kahnLoop g popFront enqBack ((sInd0 g).length + 1) (sInd0 g) (sQ0 g) []

/-- `Scheduler::kahn_sort` (also `Scheduler::schedule`, whose type check
is a no-op): a short execution list is a cycle whose participants are the
keys with positive residual in-degree. -/
def kahnSort (g : GraphDSL) : Except VortexError (List String) :=
  let r := sKahnRun g
  if r.2.length = g.nodes.length then .ok r.2
  else .error (.CycleDetected ((r.1.filter (fun p => 0 < p.2)).map Prod.fst))

/-! ## Spec-side refinement definitions

The following definitions follow the specification's words (not the
source); they exist solely to be compared against the source-derived
definitions above. -/

/-- Index of the first occurrence of `x` in `l` (`l.length` when absent). -/
def idxOf (l : List String) (x : String) : Nat :=
  match l with
  | [] => 0
  | y :: ys => if y = x then 0 else idxOf ys x + 1

/-- Spec order on links: sort by the `(dst_port, src_id)` pair. -/
def specLinkLe (l1 l2 : Link) : Bool :=
  if l1.target.2 = l2.target.2 then strLe l1.source.1 l2.source.1
  else strLe l1.target.2 l2.target.2

/-- Modelled from the spec (§3, Node Hash): the parents of a node in the
order obtained by scanning links sorted by `(dst_port, src_id)` — the
claimed `parent_hashes_in_edge_order`.  The source's `get_parents`
instead scans links in stored order. -/
def specParents (g : GraphDSL) (node_id : String) : List String :=
  (List.insertionSort (fun a b => specLinkLe a b)
    (g.links.filter (fun l => l.target.1 = node_id))).map (fun l => l.source.1)

/-- Modelled from the spec (§4.3, cost model): the predicted peak of a
plan as the sum over its nodes of the node's output byte size times the
cost multiplier of its operation type (generic ⇒ 1.5) — evaluated with
the source's own per-operation estimator.  `opOf` and `outBytes` supply
the node metadata the claim refers to (which `predict_usage` in the
source does not consume). -/
def specPredictPeak (arb : Arbiter) (opOf : String → String)
    (outBytes : String → Nat) (plan : List String) : Nat :=
  (plan.map (fun n => estimateOperationCost arb (opOf n) (outBytes n))).sum

/-- Eviction score of a cached tensor id under the claimed ranking
(`next_use_step`, absent ⇒ +∞; ids outside the cache score 0). -/
def evictScore (arb : Arbiter) (id : String) : Nat :=
  match look arb.tensor_cache id with
  | some info => info.next_use_step.getD USIZE_MAX
  | none => 0

/-- Cached size of a tensor id (0 when absent). -/
def evictSize (arb : Arbiter) (id : String) : Nat :=
  match look arb.tensor_cache id with
  | some info => info.size_bytes
  | none => 0

/-- Modelled from the spec (§4.3, `plan_eviction` strategy): `x` may
precede `y` in an eviction list when `x` has the strictly larger score,
or equal scores and strictly larger size, or equal both and the
lexicographically larger (or equal) id. -/
def specEvictLe (arb : Arbiter) (x y : String) : Bool :=
  if evictScore arb x = evictScore arb y then
    if evictSize arb x = evictSize arb y then strLe y x
    else evictSize arb y ≤ evictSize arb x
  else evictScore arb y ≤ evictScore arb x

/-- Modelled from the spec: an eviction list ordered by furthest future
use, then larger size, then lexicographically larger id. -/
def specEvictionOrdered (arb : Arbiter) (l : List String) : Prop :=
  List.Pairwise (fun x y => specEvictLe arb x y = true) l

/-! ## Concrete instances used by counterexamples and witnesses -/

/-- Two isolated nodes and no links. -/
def gIso : GraphDSL :=
  ⟨[("a", ⟨"a", "Op::A", []⟩), ("b", ⟨"b", "Op::B", []⟩)], []⟩

/-- One node with a link to a nonexistent node: acyclic, not valid. -/
def gDangling : GraphDSL :=
  ⟨[("a", ⟨"a", "Op::A", []⟩)], [⟨("a", "out"), ("b", "in")⟩]⟩

/-- Two disjoint two-cycles `a ↔ b` and `c ↔ d`. -/
def gTwoCycles : GraphDSL :=
  ⟨[("a", ⟨"a", "Op::A", []⟩), ("b", ⟨"b", "Op::B", []⟩),
    ("c", ⟨"c", "Op::C", []⟩), ("d", ⟨"d", "Op::D", []⟩)],
   [⟨("a", "o"), ("b", "i")⟩, ⟨("b", "o"), ("a", "i")⟩,
    ⟨("c", "o"), ("d", "i")⟩, ⟨("d", "o"), ("c", "i")⟩]⟩

/-- `c` has parents `b` (via dst port `"z"`) then `a` (via dst port
`"a"`): the stored link order `[b, a]` differs from the spec's
`(dst_port, src_id)` order `[a, b]`. -/
def gHashOrder : GraphDSL :=
  ⟨[("a", ⟨"a", "Op::A", []⟩), ("b", ⟨"b", "Op::B", []⟩),
    ("c", ⟨"c", "Op::C", []⟩)],
   [⟨("b", "o"), ("c", "z")⟩, ⟨("a", "o"), ("c", "a")⟩]⟩

/-- A two-node chain `n → m`. -/
def gChainNM : GraphDSL :=
  ⟨[("n", ⟨"n", "Op::N", []⟩), ("m", ⟨"m", "Op::M", []⟩)],
   [⟨("n", "o"), ("m", "i")⟩]⟩

/-- A cache with two tensors of equal `next_use_step` and distinct
sizes, the smaller stored first. -/
def arbTie : Arbiter :=
  { vram_limit := 0
    cost_table := []
    current_step := 0
    tensor_cache :=
      [ ("a", ⟨"a", 10, "float32", [], 0, some 5⟩)
      , ("b", ⟨"b", 20, "float32", [], 0, some 5⟩) ] }

/-- The spec's Scenario D cache: `T1` used soon, `T2` far in the future. -/
def arbScenD : Arbiter :=
  { vram_limit := 300 * 1024 * 1024
    cost_table := []
    current_step := 0
    tensor_cache :=
      [ ("T1", ⟨"T1", 100 * 1024 * 1024, "float32", [], 0, some 10⟩)
      , ("T2", ⟨"T2", 200 * 1024 * 1024, "float32", [], 0, some 100⟩) ] }

/-! ## Counting helpers for the Kahn invariants -/

/-- Number of links entering `k` (the initial in-degree the two Kahn
variants compute for a present key). -/
def linkCount (g : GraphDSL) (k : String) : Nat :=
  g.links.countP (fun l => l.target.1 = k)

/-- Number of links entering `k` whose source node has already been
emitted to the execution list. -/
def doneCount (g : GraphDSL) (res : List String) (k : String) : Nat :=
  g.links.countP (fun l => decide (l.source.1 ∈ res) && decide (l.target.1 = k))

/-- Number of links from `v` to `k`. -/
def outCount (g : GraphDSL) (v k : String) : Nat :=
  g.links.countP (fun l => decide (l.source.1 = v) && decide (l.target.1 = k))

/-- Occurrence count of an id in a list. -/
def countOcc (s : List String) (k : String) : Nat := s.countP (fun x => x = k)

/-- The invariant carried through both Kahn loops.  `ind0` is the initial
in-degree map, `(ind, q, res)` the loop state, and `pend` the ids whose
pending decrements are still queued inside the current child-processing
fold (`[]` between iterations).  Fields:

* `keys_eq` — the key list of the in-degree map never changes;
* `nodup` — no id is ever queued or emitted twice;
* `mem_keys` — queued and emitted ids are keys of the map;
* `deg_eq` — a stored degree plus the executed in-links equals the total
  in-links plus the pending decrements;
* `found_zero` — queued and emitted ids have degree zero;
* `zero_found` — a key of degree zero has been queued or emitted;
* `res_order` — every link into an emitted id comes from an id emitted
  strictly earlier. -/
structure KahnInv (g : GraphDSL) (ind0 ind : List (String × Nat))
    (q res pend : List String) : Prop where
  keys_eq : keysOf ind = keysOf ind0
  nodup : (res ++ q).Nodup
  mem_keys : ∀ x ∈ res ++ q, x ∈ keysOf ind0
  deg_eq : ∀ k d, look ind k = some d →
    d + doneCount g res k = linkCount g k + countOcc pend k
  found_zero : ∀ x ∈ res ++ q, look ind x = some 0
  zero_found : ∀ k ∈ keysOf ind0, look ind k = some 0 → k ∈ res ∨ k ∈ q
  res_order : ∀ v ∈ res, ∀ l ∈ g.links, l.target.1 = v →
    l.source.1 ∈ res ∧ idxOf res l.source.1 < idxOf res v

/-- A cycle is reachable from `n`: some `m` reachable from `n` (in zero or
more link steps) lies on a link cycle. -/
def CycleFrom (g : GraphDSL) (n : String) : Prop :=
  ∃ m, Relation.ReflTransGen (LinkStep g) n m ∧ Relation.TransGen (LinkStep g) m m

/-- The number of DFS candidates not yet visited — the quantity whose
strict decrease across nested calls makes `dfsFuel` adequate. -/
def unvisCount (g : GraphDSL) (st : DfsState) : Nat :=
  (dfsCandidates g).countP (fun c => !decide (c ∈ st.visited))

/-! ## Ordering instances for the eviction comparator -/

deriving instance DecidableEq for Except

instance : IsTotal (String × Nat) (fun a b => b.2 ≤ a.2) :=
  ⟨fun a b => (Nat.le_total a.2 b.2).symm⟩

instance : IsTrans (String × Nat) (fun a b => b.2 ≤ a.2) :=
  ⟨fun _ _ _ h1 h2 => Nat.le_trans h2 h1⟩

instance : IsTotal String (fun a b => strLe a b = true) := by
  constructor
  have htot : ∀ as bs : List Nat, bytesLe as bs = true ∨ bytesLe bs as = true := by
    intro as
    induction as with
    | nil => intro bs; left; rfl
    | cons a as ih =>
      intro bs
      cases bs with
      | nil => right; rfl
      | cons b bs =>
        by_cases hab : a < b
        · left
          simp [bytesLe, hab]
        · by_cases heq : a = b
          · subst heq
            rcases ih bs with h | h
            · left
              simp [bytesLe, Nat.lt_irrefl, h]
            · right
              simp [bytesLe, Nat.lt_irrefl, h]
          · right
            have hba : b < a := by omega
            simp [bytesLe, hba]
  intro a b
  exact htot (strBytes a) (strBytes b)

instance : IsTrans String (fun a b => strLe a b = true) := by
  constructor
  have htr : ∀ as bs cs : List Nat, bytesLe as bs = true → bytesLe bs cs = true →
      bytesLe as cs = true := by
    intro as
    induction as with
    | nil => intro bs cs _ _; rfl
    | cons a as ih =>
      intro bs cs h1 h2
      cases bs with
      | nil => simp [bytesLe] at h1
      | cons b bs =>
        cases cs with
        | nil => simp [bytesLe] at h2
        | cons c cs =>
          by_cases hab : a < b
          · by_cases hbc : b < c
            · have hac : a < c := by omega
              simp [bytesLe, hac]
            · by_cases hbc2 : b = c
              · subst hbc2
                simp [bytesLe, hab]
              · simp [bytesLe, hbc, hbc2] at h2
          · by_cases heq : a = b
            · subst heq
              simp [bytesLe, Nat.lt_irrefl] at h1
              by_cases hac : a < c
              · simp [bytesLe, hac]
              · by_cases heq2 : a = c
                · subst heq2
                  simp [bytesLe, Nat.lt_irrefl] at h2
                  simp [bytesLe, Nat.lt_irrefl]
                  exact ih bs cs h1 h2
                · simp [bytesLe, hac, heq2] at h2
            · simp [bytesLe, hab, heq] at h1
  intro a b c
  exact htr (strBytes a) (strBytes b) (strBytes c)

instance : IsAntisymm String (fun a b => strLe a b = true) := by
  constructor
  have hby : ∀ as bs : List Nat, bytesLe as bs = true → bytesLe bs as = true → as = bs := by
    intro as
    induction as with
    | nil =>
      intro bs h1 h2
      cases bs with
      | nil => rfl
      | cons b bs => simp [bytesLe] at h2
    | cons a as ih =>
      intro bs h1 h2
      cases bs with
      | nil => simp [bytesLe] at h1
      | cons b bs =>
        by_cases hab : a < b
        · have h3 : ¬ b < a := by omega
          have h4 : ¬ b = a := by omega
          simp [bytesLe, h3, h4] at h2
        · by_cases heq : a = b
          · subst heq
            simp [bytesLe, Nat.lt_irrefl] at h1 h2
            rw [ih bs h1 h2]
          · simp [bytesLe, hab, heq] at h1
  intro a b h1 h2
  have hb := hby (strBytes a) (strBytes b) h1 h2
  have hinj : Function.Injective Char.toNat := by
    intro c1 c2 hc
    have h3 : Char.ofNat c1.toNat = Char.ofNat c2.toNat := by rw [hc]
    rwa [Char.ofNat_toNat, Char.ofNat_toNat] at h3
  have hdata : a.data = b.data := List.map_injective_iff.mpr hinj hb
  exact congrArg String.mk hdata

/-! ## Association-list lemmas -/

theorem look_append_some {β : Type} {l1 : List (String × β)} (l2 : List (String × β))
    {k : String} {v : β} (h : look l1 k = some v) : look (l1 ++ l2) k = some v := by
  induction l1 with
  | nil => simp [look] at h
  | cons p rest ih =>
    obtain ⟨k1, v1⟩ := p
    by_cases hk : k1 = k
    · simp only [List.cons_append, look, if_pos hk] at h ⊢
      exact h
    · simp only [List.cons_append, look, if_neg hk] at h ⊢
      exact ih h

theorem look_eq_none_iff {β : Type} (l : List (String × β)) (k : String) :
    look l k = none ↔ k ∉ keysOf l := by
  induction l with
  | nil => simp [look, keysOf]
  | cons p rest ih =>
    obtain ⟨k1, v1⟩ := p
    simp only [keysOf, List.map_cons, List.mem_cons] at ih ⊢
    by_cases hk : k1 = k
    · subst hk
      simp [look]
    · have hk2 : ¬ (k = k1) := fun h => hk h.symm
      simp only [look, if_neg hk, hk2, false_or]
      exact ih

theorem look_isSome_iff {β : Type} (l : List (String × β)) (k : String) :
    (look l k).isSome ↔ k ∈ keysOf l := by
  rcases h : look l k with _ | v
  · rw [look_eq_none_iff] at h
    simp [h]
  · simp only [Option.isSome_some, true_iff]
    by_contra hk
    rw [← look_eq_none_iff] at hk
    rw [h] at hk
    exact Option.noConfusion hk

theorem look_of_mem_nodup {β : Type} {l : List (String × β)} {k : String} {v : β}
    (hmem : (k, v) ∈ l) (hnd : (keysOf l).Nodup) : look l k = some v := by
  induction l with
  | nil => simp at hmem
  | cons p rest ih =>
    obtain ⟨k1, v1⟩ := p
    simp only [keysOf, List.map_cons, List.nodup_cons] at hnd
    rcases List.mem_cons.mp hmem with heq | htail
    · have hk : k1 = k := (congrArg Prod.fst heq).symm
      have hv : v1 = v := (congrArg Prod.snd heq).symm
      simp [look, hk, hv]
    · have hk1 : k1 ≠ k := by
        intro hcontra
        exact hnd.1 (hcontra ▸ (List.mem_map.mpr ⟨(k, v), htail, rfl⟩))
      simp only [look, hk1, if_false]
      exact ih htail hnd.2

/-! ## Claim C10 — raw worker status conversion -/

/-- C10: converting a raw 32-bit slot status to a `WorkerStatus` is total:
0, 1, 2, 3 map to Idle, Busy, Dead, Booting, and every other `u32` value
maps to Dead, so a corrupted status field reads as a dead worker. -/
theorem spec_c10_worker_status_total :
    WorkerStatus.fromU32 0 = .Idle ∧ WorkerStatus.fromU32 1 = .Busy ∧
    WorkerStatus.fromU32 2 = .Dead ∧ WorkerStatus.fromU32 3 = .Booting ∧
    (∀ v : Nat, v < 2 ^ 32 → v ≠ 0 → v ≠ 1 → v ≠ 2 → v ≠ 3 →
      WorkerStatus.fromU32 v = .Dead) ∧
    (∀ slot : WorkerSlot, slot.status < 2 ^ 32 → slot.status ≠ 0 → slot.status ≠ 1 →
      slot.status ≠ 2 → slot.status ≠ 3 → slot.getStatus = .Dead) := by
  refine ⟨rfl, rfl, rfl, rfl, ?_, ?_⟩
  · intro v _ h0 h1 h2 h3
    simp [WorkerStatus.fromU32, h0, h1, h2, h3]
  · intro slot _ h0 h1 h2 h3
    simp [WorkerSlot.getStatus, WorkerStatus.fromU32, h0, h1, h2, h3]

/-- Witness for C10 at the corrupted status word `0xDEADBEEF`. -/
theorem spec_c10_witness :
    WorkerStatus.fromU32 3735928559 = .Dead ∧
    (WorkerSlot.mk 7 3735928559 0 0).getStatus = .Dead :=
  ⟨spec_c10_worker_status_total.2.2.2.2.1 3735928559 (by decide) (by decide)
      (by decide) (by decide) (by decide),
   spec_c10_worker_status_total.2.2.2.2.2 (WorkerSlot.mk 7 3735928559 0 0) (by decide)
      (by decide) (by decide) (by decide) (by decide)⟩

/-! ## Claim C7 — predicted peak VRAM -/

/-- C7 counterexample: `predict_usage` returns a flat 100 MiB per plan
node; for a one-node plan whose node has a generic operation type and a
10-byte output, the claimed cost-model sum is ⌊10 · 1.5⌋ = 15 bytes, but
the code returns 104857600. -/
theorem spec_c7_counterexample :
    predictUsage ["n"] = 104857600 ∧
    specPredictPeak (Arbiter.new 8192) (fun _ => "Op::Generic") (fun _ => 10) ["n"] = 15 ∧
    predictUsage ["n"] ≠
      specPredictPeak (Arbiter.new 8192) (fun _ => "Op::Generic") (fun _ => 10) ["n"] := by
  refine ⟨by decide, by decide, by decide⟩

/-- C7 amended: the predicted peak returned by `predict_usage` is the sum
over the plan's nodes of a constant 100 MiB — it ignores operation types,
output sizes and the cost table entirely. -/
theorem spec_c7_predict_usage_flat (plan : List String) :
    predictUsage plan = (plan.map (fun _ => 100 * 1024 * 1024)).sum ∧
    predictUsage plan = plan.length * 104857600 := by
  constructor
  · induction plan with
    | nil => rfl
    | cons x rest ih =>
      simp only [predictUsage, List.length_cons, List.map_cons, List.sum_cons] at ih ⊢
      omega
  · rfl

/-! ## Claim C4 — planner idempotence -/

theorem hashChanged_refl_false (h : List (String × List Nat)) (n : String)
    (hs : (look h n).isSome) : hashChangedB h h n = false := by
  rcases hl : look h n with _ | v
  · rw [hl] at hs
    exact absurd hs (by simp)
  · simp [hashChangedB, hl]

theorem hashChanged_prev_nil (cur : List (String × List Nat)) (n : String) :
    hashChangedB cur [] n = true := by
  rcases hl : look cur n with _ | v <;> simp [hashChangedB, hl, look]

theorem dirty_fold_stays_nil (g : GraphDSL) (cur prev : List (String × List Nat))
    (o : List String) (hall : ∀ n ∈ o, hashChangedB cur prev n = false) :
    o.foldl (dirtyStep g cur prev) [] = [] := by
  induction o with
  | nil => rfl
  | cons x rest ih =>
    have hx := hall x (List.mem_cons_self x rest)
    have hany : ((getParents g x).any (fun pid => pid ∈ ([] : List String))) = false := by
      rw [List.any_eq_false]
      intro p _
      simp
    have hstep : dirtyStep g cur prev [] x = [] := by
      simp [dirtyStep, hx, hany]
    rw [List.foldl_cons, hstep]
    exact ih (fun n hn => hall n (List.mem_cons_of_mem x hn))

theorem dirty_fold_all (g : GraphDSL) (cur : List (String × List Nat)) :
    ∀ (o acc : List String), o.foldl (dirtyStep g cur []) acc = acc ++ o := by
  intro o
  induction o with
  | nil => intro acc; simp
  | cons x rest ih =>
    intro acc
    simp only [List.foldl_cons, dirtyStep, hashChanged_prev_nil, Bool.true_or, if_true]
    rw [ih (acc ++ [x])]
    simp

/-- C4 counterexample: with an order containing a node absent from the
hash map, `plan(o, h, h)` is not empty — running the planner against
identical (here: both empty) hash maps marks the node dirty, because a
missing hash is treated as changed. -/
theorem spec_c4_counterexample :
    computeDirtySet gChainNM ["n"] [] [] = ["n"] ∧ ["n"] ≠ ([] : List String) := by
  constructor
  · decide
  · decide

/-- C4 amended: when every node of the order has a current hash,
`plan(o, h, h)` is the empty sequence; `plan(o, h, ∅) = o` holds
unconditionally. -/
theorem spec_c4_planner_idempotence (g : GraphDSL) (o : List String)
    (h : List (String × List Nat)) :
    ((∀ n ∈ o, (look h n).isSome) → computeDirtySet g o h h = []) ∧
    computeDirtySet g o h [] = o := by
  constructor
  · intro hcov
    unfold computeDirtySet
    rw [dirty_fold_stays_nil g h h o (fun n hn => hashChanged_refl_false h n (hcov n hn))]
    simp
  · unfold computeDirtySet
    rw [dirty_fold_all g h o []]
    simp only [List.nil_append]
    rw [List.filter_eq_self]
    intro a ha
    simpa using ha

/-- Witness for C4 on the two-node chain with full hash coverage. -/
theorem spec_c4_witness :
    computeDirtySet gChainNM ["n", "m"] [("n", [1]), ("m", [2])] [("n", [1]), ("m", [2])] = [] ∧
    computeDirtySet gChainNM ["n", "m"] [("n", [1]), ("m", [2])] [] = ["n", "m"] :=
  ⟨(spec_c4_planner_idempotence gChainNM ["n", "m"] [("n", [1]), ("m", [2])]).1 (by decide),
   (spec_c4_planner_idempotence gChainNM ["n", "m"] [("n", [1]), ("m", [2])]).2⟩

/-! ## Claim C6 — eviction ordering -/

theorem greedyEvict_sublist (cache : List (String × TensorInfo)) (needed : Nat) :
    ∀ (l : List (String × Nat)) (freed : Nat),
      List.Sublist (greedyEvict cache needed l freed) (l.map Prod.fst) := by
  intro l
  induction l with
  | nil =>
    intro freed
    simp [greedyEvict]
  | cons p rest ih =>
    intro freed
    obtain ⟨id, sc⟩ := p
    by_cases hf : needed ≤ freed
    · simp only [greedyEvict, if_pos hf, List.map_cons]
      exact List.nil_sublist _
    · rcases hl : look cache id with _ | info
      · simp only [greedyEvict, if_neg hf, hl, List.map_cons]
        exact (ih freed).cons _
      · simp only [greedyEvict, if_neg hf, hl, List.map_cons]
        exact (ih _).cons₂ _

theorem greedyEvict_mem_isSome (cache : List (String × TensorInfo)) (needed : Nat) :
    ∀ (l : List (String × Nat)) (freed : Nat) (id : String),
      id ∈ greedyEvict cache needed l freed → (look cache id).isSome := by
  intro l
  induction l with
  | nil =>
    intro freed id h
    simp [greedyEvict] at h
  | cons p rest ih =>
    intro freed id h
    obtain ⟨id1, sc⟩ := p
    by_cases hf : needed ≤ freed
    · simp only [greedyEvict, if_pos hf] at h
      simp at h
    · rcases hl : look cache id1 with _ | info
      · simp only [greedyEvict, if_neg hf, hl] at h
        exact ih freed id h
      · simp only [greedyEvict, if_neg hf, hl, List.mem_cons] at h
        rcases h with heq | htail
        · rw [heq, hl]
          rfl
        · exact ih _ id htail

/-- C6 counterexample: with two cached tensors tied on `next_use_step`
(sizes 10 and 20, the smaller stored first), `plan_eviction` returns the
smaller-size id first — the claimed larger-size tie-break does not hold. -/
theorem spec_c6_counterexample :
    planEviction arbTie 0 100 [] = ["a", "b"] ∧
    ¬ specEvictionOrdered arbTie ["a", "b"] := by
  constructor
  · decide
  · unfold specEvictionOrdered
    decide

/-- C6 amended: the eviction list returned by `plan_eviction` consists of
cached tensor ids and is ordered by furthest future use first (absent
`next_use_step` scoring `usize::MAX`, hence evicted first); ties are left
in the cache's iteration order — no size or id tie-break is applied. -/
theorem spec_c6_eviction_order (arb : Arbiter) (current_vram needed : Nat)
    (plan : List String) (hnd : (keysOf arb.tensor_cache).Nodup) :
    (∀ id ∈ planEviction arb current_vram needed plan,
      (look arb.tensor_cache id).isSome) ∧
    List.Pairwise (fun x y => evictScore arb y ≤ evictScore arb x)
      (planEviction arb current_vram needed plan) := by
  have hplan : planEviction arb current_vram needed plan =
      greedyEvict arb.tensor_cache needed
        (List.insertionSort (fun a b : String × Nat => b.2 ≤ a.2)
          (arb.tensor_cache.map (fun e => (e.1, e.2.next_use_step.getD USIZE_MAX)))) 0 :=
    rfl
  constructor
  · intro id hid
    rw [hplan] at hid
    exact greedyEvict_mem_isSome _ _ _ _ _ hid
  · rw [hplan]
    set scored := arb.tensor_cache.map (fun e => (e.1, e.2.next_use_step.getD USIZE_MAX))
      with hscored
    set sorted := List.insertionSort (fun a b : String × Nat => b.2 ≤ a.2) scored
      with hsortedDef
    have hscore : ∀ p ∈ scored, p.2 = evictScore arb p.1 := by
      intro p hp
      rw [hscored] at hp
      rcases List.mem_map.mp hp with ⟨e, he, hpe⟩
      have hlook : look arb.tensor_cache e.1 = some e.2 :=
        look_of_mem_nodup (by simpa using he) hnd
      rw [← hpe]
      simp [evictScore, hlook]
    have hsorted : List.Pairwise (fun a b : String × Nat => b.2 ≤ a.2) sorted :=
      List.sorted_insertionSort _ scored
    have hmem : ∀ p ∈ sorted, p ∈ scored := fun p hp =>
      (List.perm_insertionSort _ scored).subset hp
    have hsorted2 : List.Pairwise
        (fun a b : String × Nat => evictScore arb b.1 ≤ evictScore arb a.1) sorted := by
      refine hsorted.imp_of_mem ?_
      intro a b ha hb hab
      rw [← hscore a (hmem a ha), ← hscore b (hmem b hb)]
      exact hab
    have hmap : List.Pairwise (fun x y => evictScore arb y ≤ evictScore arb x)
        (sorted.map Prod.fst) := by
      rw [List.pairwise_map]
      exact hsorted2
    exact hmap.sublist (greedyEvict_sublist _ _ _ _)

/-- Witness for C6 on the spec's Scenario D cache. -/
theorem spec_c6_witness :
    (∀ id ∈ planEviction arbScenD (300 * 1024 * 1024) (150 * 1024 * 1024) [],
      (look arbScenD.tensor_cache id).isSome) ∧
    List.Pairwise (fun x y => evictScore arbScenD y ≤ evictScore arbScenD x)
      (planEviction arbScenD (300 * 1024 * 1024) (150 * 1024 * 1024) []) :=
  spec_c6_eviction_order arbScenD (300 * 1024 * 1024) (150 * 1024 * 1024) [] (by decide)

/-! ## Claim C8 — prepare_execution -/

/-- C8: `prepare_execution` returns the empty eviction list when the
saturating sum of `current_vram` and the predicted peak fits the limit;
otherwise it returns `ResourceExhausted` (with the megabyte figures of
the source) exactly when the planned evictions do not cover the deficit,
and the eviction plan itself otherwise.  The arbiter state (in
particular the cache) is never mutated: the model is a pure function of
`arb`, matching the `&self` receiver of the source. -/
theorem spec_c8_prepare_execution (arb : Arbiter) (plan : List String)
    (current_vram : Nat) :
    (min (current_vram + predictUsage plan) USIZE_MAX ≤ arb.vram_limit →
      prepareExecution arb plan current_vram = .ok []) ∧
    (arb.vram_limit < min (current_vram + predictUsage plan) USIZE_MAX →
      (evictableBytes arb (planEviction arb current_vram
            (min (current_vram + predictUsage plan) USIZE_MAX - arb.vram_limit) plan) <
          min (current_vram + predictUsage plan) USIZE_MAX - arb.vram_limit →
        prepareExecution arb plan current_vram =
          .error (.ResourceExhausted
            (min (current_vram + predictUsage plan) USIZE_MAX / (1024 * 1024))
            (arb.vram_limit / (1024 * 1024)))) ∧
      (min (current_vram + predictUsage plan) USIZE_MAX - arb.vram_limit ≤
          evictableBytes arb (planEviction arb current_vram
            (min (current_vram + predictUsage plan) USIZE_MAX - arb.vram_limit) plan) →
        prepareExecution arb plan current_vram =
          .ok (planEviction arb current_vram
            (min (current_vram + predictUsage plan) USIZE_MAX - arb.vram_limit) plan))) := by
  refine ⟨?_, ?_⟩
  · intro hfit
    unfold prepareExecution
    rw [if_pos hfit]
  · intro hover
    have hnot : ¬ min (current_vram + predictUsage plan) USIZE_MAX ≤ arb.vram_limit :=
      Nat.not_le.mpr hover
    refine ⟨?_, ?_⟩
    · intro hshort
      unfold prepareExecution
      rw [if_neg hnot, if_pos hshort]
    · intro hcover
      have hnot2 : ¬ evictableBytes arb (planEviction arb current_vram
          (min (current_vram + predictUsage plan) USIZE_MAX - arb.vram_limit) plan) <
          min (current_vram + predictUsage plan) USIZE_MAX - arb.vram_limit :=
        Nat.not_lt.mpr hcover
      unfold prepareExecution
      rw [if_neg hnot, if_neg hnot2]

/-- Witness for C8: the fit branch on an empty plan with a huge limit,
and the exhausted branch on a one-node plan with a zero limit and an
uncovering cache. -/
theorem spec_c8_witness :
    prepareExecution (Arbiter.new 8192) [] 0 = .ok [] ∧
    prepareExecution arbTie ["n"] 0 = .error (.ResourceExhausted 100 0) := by
  constructor
  · exact (spec_c8_prepare_execution (Arbiter.new 8192) [] 0).1 (by decide)
  · exact ((spec_c8_prepare_execution arbTie ["n"] 0).2 (by decide)).1 (by decide)

/-! ## Claim C3 — dirty-set closure and characterization -/

theorem idxOf_append_left {l1 : List String} (l2 : List String) {x : String}
    (h : x ∈ l1) : idxOf (l1 ++ l2) x = idxOf l1 x := by
  induction l1 with
  | nil => simp at h
  | cons y ys ih =>
    by_cases hy : y = x
    · simp [idxOf, hy]
    · rcases List.mem_cons.mp h with heq | htail
      · exact absurd heq.symm hy
      · simp [idxOf, hy, ih htail]

theorem idxOf_append_right {l1 : List String} (l2 : List String) {x : String}
    (h : x ∉ l1) : idxOf (l1 ++ l2) x = l1.length + idxOf l2 x := by
  induction l1 with
  | nil => simp [idxOf]
  | cons y ys ih =>
    have hy : y ≠ x := fun hc => h (hc ▸ List.mem_cons_self y ys)
    have hys : x ∉ ys := fun hc => h (List.mem_cons_of_mem y hc)
    simp [idxOf, hy, ih hys]
    omega

theorem idxOf_lt_length {l : List String} {x : String} (h : x ∈ l) :
    idxOf l x < l.length := by
  induction l with
  | nil => simp at h
  | cons y ys ih =>
    by_cases hy : y = x
    · simp [idxOf, hy]
    · rcases List.mem_cons.mp h with heq | htail
      · exact absurd heq.symm hy
      · simp only [idxOf, hy, if_false, List.length_cons]
        exact Nat.succ_lt_succ (ih htail)

theorem mem_left_of_idxOf_lt {l1 l2 : List String} {x : String}
    (h : idxOf (l1 ++ l2) x < l1.length) : x ∈ l1 := by
  by_contra hx
  rw [idxOf_append_right l2 hx] at h
  omega

theorem dirtyStep_subset (g : GraphDSL) (cur prev : List (String × List Nat))
    (acc : List String) (t x : String) (h : x ∈ dirtyStep g cur prev acc t) :
    x ∈ acc ∨ x = t := by
  unfold dirtyStep at h
  by_cases hcond : (hashChangedB cur prev t ||
      (getParents g t).any (fun pid => pid ∈ acc)) = true
  · rw [if_pos hcond] at h
    rcases List.mem_append.mp h with h1 | h2
    · exact Or.inl h1
    · exact Or.inr (List.mem_singleton.mp h2)
  · rw [if_neg hcond] at h
    exact Or.inl h

theorem dirty_fold_spec (g : GraphDSL) (cur prev : List (String × List Nat))
    (order : List String) (hnd : order.Nodup)
    (htopo : ∀ l ∈ g.links, l.target.1 ∈ order →
      l.source.1 ∈ order ∧ idxOf order l.source.1 < idxOf order l.target.1) :
    ∀ (todo done acc : List String),
      order = done ++ todo →
      (∀ x ∈ acc, x ∈ done) →
      (∀ x ∈ done,
        (x ∈ acc ↔ hashChangedB cur prev x = true ∨ ∃ p ∈ getParents g x, p ∈ acc)) →
      (∀ x ∈ todo.foldl (dirtyStep g cur prev) acc, x ∈ order) ∧
      (∀ x ∈ order,
        (x ∈ todo.foldl (dirtyStep g cur prev) acc ↔
          hashChangedB cur prev x = true ∨
            ∃ p ∈ getParents g x, p ∈ todo.foldl (dirtyStep g cur prev) acc)) := by
  intro todo
  induction todo with
  | nil =>
    intro done acc horder hsub hiff
    subst horder
    simp only [List.foldl_nil, List.append_nil]
    exact ⟨fun x hx => by simpa using hsub x hx, fun x hx => hiff x (by simpa using hx)⟩
  | cons t rest ih =>
    intro done acc horder hsub hiff
    -- basic position facts
    have htdone : t ∉ done := by
      intro hc
      have : ¬ order.Nodup := by
        rw [horder]
        intro hbad
        have := List.disjoint_of_nodup_append hbad
        exact this hc (List.mem_cons_self t rest)
      exact this hnd
    have htorder : t ∈ order := by
      rw [horder]
      exact List.mem_append.mpr (Or.inr (List.mem_cons_self t rest))
    have hidx_t : idxOf order t = done.length := by
      rw [horder, idxOf_append_right _ htdone]
      simp [idxOf]
    -- no parent of a done node is t, and t is not its own parent
    have hpar_ne_t : ∀ x, x ∈ done ∨ x = t → ∀ p ∈ getParents g x, p ≠ t := by
      intro x hx p hp hpt
      subst hpt
      rcases List.mem_map.mp hp with ⟨l, hl, hsrc⟩
      have hlmem : l ∈ g.links := (List.mem_filter.mp hl).1
      have hltgt : l.target.1 = x := by
        have := (List.mem_filter.mp hl).2
        simpa using this
      have hxorder : x ∈ order := by
        rcases hx with hxd | hxt
        · rw [horder]; exact List.mem_append.mpr (Or.inl hxd)
        · rw [hxt]; exact htorder
      have := htopo l hlmem (hltgt ▸ hxorder)
      rw [hsrc, hltgt] at this
      rcases hx with hxd | hxt
      · have hidx_x : idxOf order x < done.length := by
          rw [horder, idxOf_append_left _ hxd]
          exact idxOf_lt_length hxd
        rw [hidx_t] at this
        omega
      · rw [hxt] at this
        omega
    -- the new accumulator
    set acc1 := dirtyStep g cur prev acc t with hacc1
    have hmem_acc1 : ∀ x, x ∈ acc1 ↔ x ∈ acc ∨
        (x = t ∧ (hashChangedB cur prev t ||
          (getParents g t).any (fun pid => pid ∈ acc)) = true) := by
      intro x
      rw [hacc1]
      unfold dirtyStep
      by_cases hcond : (hashChangedB cur prev t ||
          (getParents g t).any (fun pid => pid ∈ acc)) = true
      · rw [if_pos hcond]
        simp [hcond]
      · rw [if_neg hcond]
        simp [hcond]
    have htacc : t ∉ acc := fun hc => htdone (hsub t hc)
    -- invariant preservation
    have hsub1 : ∀ x ∈ acc1, x ∈ done ++ [t] := by
      intro x hx
      rcases dirtyStep_subset g cur prev acc t x hx with h1 | h2
      · exact List.mem_append.mpr (Or.inl (hsub x h1))
      · exact List.mem_append.mpr (Or.inr (by simp [h2]))
    have hiff1 : ∀ x ∈ done ++ [t],
        (x ∈ acc1 ↔ hashChangedB cur prev x = true ∨
          ∃ p ∈ getParents g x, p ∈ acc1) := by
      intro x hx
      rcases List.mem_append.mp hx with hxd | hxt
      · -- old done node: nothing changed for it
        have hxne : x ≠ t := fun hc => htdone (hc ▸ hxd)
        have hl : x ∈ acc1 ↔ x ∈ acc := by
          rw [hmem_acc1]
          simp [hxne]
        have hr : (∃ p ∈ getParents g x, p ∈ acc1) ↔
            (∃ p ∈ getParents g x, p ∈ acc) := by
          constructor
          · rintro ⟨p, hp, hpacc1⟩
            have hpne : p ≠ t := hpar_ne_t x (Or.inl hxd) p hp
            rw [hmem_acc1] at hpacc1
            rcases hpacc1 with h1 | ⟨h2, _⟩
            · exact ⟨p, hp, h1⟩
            · exact absurd h2 hpne
          · rintro ⟨p, hp, hpacc⟩
            exact ⟨p, hp, (hmem_acc1 p).mpr (Or.inl hpacc)⟩
        rw [hl, hr]
        exact hiff x hxd
      · -- the newly processed node t
        have hxt2 : x = t := by simpa using hxt
        subst hxt2
        have hl : x ∈ acc1 ↔ (hashChangedB cur prev x ||
            (getParents g x).any (fun pid => pid ∈ acc)) = true := by
          rw [hmem_acc1]
          simp [htacc]
        have hr : (∃ p ∈ getParents g x, p ∈ acc1) ↔
            (∃ p ∈ getParents g x, p ∈ acc) := by
          constructor
          · rintro ⟨p, hp, hpacc1⟩
            have hpne : p ≠ x := hpar_ne_t x (Or.inr rfl) p hp
            rw [hmem_acc1] at hpacc1
            rcases hpacc1 with h1 | ⟨h2, _⟩
            · exact ⟨p, hp, h1⟩
            · exact absurd h2 hpne
          · rintro ⟨p, hp, hpacc⟩
            exact ⟨p, hp, (hmem_acc1 p).mpr (Or.inl hpacc)⟩
        rw [hl, hr]
        rw [Bool.or_eq_true, List.any_eq_true]
        constructor
        · rintro (h1 | ⟨p, hp, hpacc⟩)
          · exact Or.inl h1
          · exact Or.inr ⟨p, hp, by simpa using hpacc⟩
        · rintro (h1 | ⟨p, hp, hpacc⟩)
          · exact Or.inl h1
          · exact Or.inr ⟨p, hp, by simpa using hpacc⟩
    -- apply the induction hypothesis
    have horder1 : order = (done ++ [t]) ++ rest := by
      rw [horder]
      simp
    have := ih (done ++ [t]) acc1 horder1 hsub1 hiff1
    simpa using this

/-- C3 counterexample: with the non-topological order `[m, n]` over the
chain `n → m` and hashes where only `n` changed, the planner returns
`["n"]`: `n` is dirty, the link `n → m` exists, `m` is in the order, yet
`m` is not dirty — the descendants-closure and the claimed iff both fail
for this order. -/
theorem spec_c3_counterexample :
    computeDirtySet gChainNM ["m", "n"]
      [("n", [1]), ("m", [2])] [("n", [9]), ("m", [2])] = ["n"] ∧
    (⟨("n", "o"), ("m", "i")⟩ : Link) ∈ gChainNM.links ∧
    "n" ∈ computeDirtySet gChainNM ["m", "n"]
      [("n", [1]), ("m", [2])] [("n", [9]), ("m", [2])] ∧
    "m" ∈ ["m", "n"] ∧
    "m" ∉ computeDirtySet gChainNM ["m", "n"]
      [("n", [1]), ("m", [2])] [("n", [9]), ("m", [2])] := by
  refine ⟨by decide, by decide, by decide, by decide, by decide⟩

/-- C3 amended: for execution orders that respect the links (each link's
source precedes its target in the order), the dirty list is closed under
descendants present in the order, and a node of the order is dirty iff
its hash changed (or is missing on either side) or some parent of it is
dirty. -/
theorem spec_c3_dirty_closure (g : GraphDSL) (order : List String)
    (cur prev : List (String × List Nat)) (hnd : order.Nodup)
    (htopo : ∀ l ∈ g.links, l.target.1 ∈ order →
      l.source.1 ∈ order ∧ idxOf order l.source.1 < idxOf order l.target.1) :
    (∀ n ∈ computeDirtySet g order cur prev, ∀ l ∈ g.links, l.source.1 = n →
      l.target.1 ∈ order → l.target.1 ∈ computeDirtySet g order cur prev) ∧
    (∀ n ∈ order,
      (n ∈ computeDirtySet g order cur prev ↔
        hashChangedB cur prev n = true ∨
          ∃ p ∈ getParents g n, p ∈ computeDirtySet g order cur prev)) := by
  have hspec := dirty_fold_spec g cur prev order hnd htopo order [] []
    (by simp) (by simp) (by simp)
  set D := order.foldl (dirtyStep g cur prev) [] with hD
  obtain ⟨hDsub, hDiff⟩ := hspec
  have hres : computeDirtySet g order cur prev = order.filter (fun id => id ∈ D) := rfl
  have hmem_res : ∀ x, x ∈ computeDirtySet g order cur prev ↔ x ∈ order ∧ x ∈ D := by
    intro x
    rw [hres, List.mem_filter]
    simp
  have hDres : ∀ x, x ∈ D ↔ x ∈ computeDirtySet g order cur prev := by
    intro x
    rw [hmem_res]
    exact ⟨fun h => ⟨hDsub x h, h⟩, fun h => h.2⟩
  have hiff_res : ∀ n ∈ order,
      (n ∈ computeDirtySet g order cur prev ↔
        hashChangedB cur prev n = true ∨
          ∃ p ∈ getParents g n, p ∈ computeDirtySet g order cur prev) := by
    intro n hn
    rw [← hDres n]
    rw [hDiff n hn]
    constructor
    · rintro (h1 | ⟨p, hp, hpD⟩)
      · exact Or.inl h1
      · exact Or.inr ⟨p, hp, (hDres p).mp hpD⟩
    · rintro (h1 | ⟨p, hp, hpres⟩)
      · exact Or.inl h1
      · exact Or.inr ⟨p, hp, (hDres p).mpr hpres⟩
  refine ⟨?_, hiff_res⟩
  intro n hn l hl hsrc htgt
  have hpar : n ∈ getParents g l.target.1 := by
    unfold getParents
    refine List.mem_map.mpr ⟨l, ?_, hsrc⟩
    rw [List.mem_filter]
    exact ⟨hl, by simp⟩
  exact (hiff_res l.target.1 htgt).mpr (Or.inr ⟨n, hpar, hn⟩)

/-- Witness for C3 on the chain `n → m` in topological order with `n`'s
hash changed: both conclusions instantiated and the hypotheses
discharged by computation. -/
theorem spec_c3_witness :
    (∀ n ∈ computeDirtySet gChainNM ["n", "m"]
        [("n", [1]), ("m", [2])] [("n", [9]), ("m", [2])],
      ∀ l ∈ gChainNM.links, l.source.1 = n → l.target.1 ∈ ["n", "m"] →
        l.target.1 ∈ computeDirtySet gChainNM ["n", "m"]
          [("n", [1]), ("m", [2])] [("n", [9]), ("m", [2])]) ∧
    (∀ n ∈ ["n", "m"],
      (n ∈ computeDirtySet gChainNM ["n", "m"]
          [("n", [1]), ("m", [2])] [("n", [9]), ("m", [2])] ↔
        hashChangedB [("n", [1]), ("m", [2])] [("n", [9]), ("m", [2])] n = true ∨
          ∃ p ∈ getParents gChainNM n,
            p ∈ computeDirtySet gChainNM ["n", "m"]
              [("n", [1]), ("m", [2])] [("n", [9]), ("m", [2])])) :=
  spec_c3_dirty_closure gChainNM ["n", "m"]
    [("n", [1]), ("m", [2])] [("n", [9]), ("m", [2])] (by decide) (by decide)

/-! ## Claim C1 — node hashes computed during compilation -/

theorem look_append_none {β : Type} {l1 l2 : List (String × β)} {k : String}
    (h : look l1 k = none) : look (l1 ++ l2) k = look l2 k := by
  induction l1 with
  | nil => simp
  | cons p rest ih =>
    obtain ⟨k1, v1⟩ := p
    by_cases hk : k1 = k
    · simp [look, hk] at h
    · simp only [look, if_neg hk] at h
      simp only [List.cons_append, look, if_neg hk]
      exact ih h

theorem filterMap_congr_mem {α β : Type} {f f1 : α → Option β} :
    ∀ {l : List α}, (∀ a ∈ l, f a = f1 a) → l.filterMap f = l.filterMap f1 := by
  intro l
  induction l with
  | nil => intro _; rfl
  | cons x xs ih =>
    intro h
    have hx := h x (List.mem_cons_self x xs)
    simp only [List.filterMap_cons, hx]
    rw [ih (fun a ha => h a (List.mem_cons_of_mem x ha))]

theorem computeAllHashesAux_mono (sha : List Nat → List Nat) (g : GraphDSL) :
    ∀ (order : List String) (acc : List (String × List Nat)) (x : String) (v : List Nat),
      look acc x = some v → look (computeAllHashesAux sha g order acc) x = some v := by
  intro order
  induction order with
  | nil =>
    intro acc x v h
    simpa [computeAllHashesAux] using h
  | cons o os ih =>
    intro acc x v h
    rcases hlo : look g.nodes o with _ | nodeO
    · simp only [computeAllHashesAux, hlo]
      exact ih acc x v h
    · simp only [computeAllHashesAux, hlo]
      exact ih _ x v (look_append_some _ h)

theorem computeAllHashesAux_spec (sha : List Nat → List Nat) (g : GraphDSL) :
    ∀ (order : List String) (acc : List (String × List Nat)),
      order.Nodup →
      (∀ x ∈ order, x ∉ keysOf acc) →
      ∀ (n : String) (node : Node),
        look g.nodes n = some node →
        n ∈ order →
        (∀ p ∈ getParents g n,
          p ∈ keysOf acc ∨
            (p ∈ order ∧ idxOf order p < idxOf order n ∧ (look g.nodes p).isSome)) →
        (∀ p ∈ getParents g n,
          (look (computeAllHashesAux sha g order acc) p).isSome) ∧
        look (computeAllHashesAux sha g order acc) n =
          some (Node.computeHash sha node
            ((getParents g n).filterMap
              (fun pid => look (computeAllHashesAux sha g order acc) pid))) := by
  intro order
  induction order with
  | nil =>
    intro acc _ _ n node _ hmem _
    simp at hmem
  | cons o os ih =>
    intro acc hnd hfresh n node hnode hmem hpar
    have hndos : os.Nodup := (List.nodup_cons.mp hnd).2
    have hoos : o ∉ os := (List.nodup_cons.mp hnd).1
    rcases hlo : look g.nodes o with _ | nodeO
    · -- the head id is not a node: the accumulator is unchanged
      have hne : n ≠ o := by
        intro hc
        rw [hc, hlo] at hnode
        exact Option.noConfusion hnode
      have hmos : n ∈ os := by
        rcases List.mem_cons.mp hmem with hc | h
        · exact absurd hc hne
        · exact h
      have hfresh1 : ∀ x ∈ os, x ∉ keysOf acc :=
        fun x hx => hfresh x (List.mem_cons_of_mem o hx)
      have hpar1 : ∀ p ∈ getParents g n,
          p ∈ keysOf acc ∨
            (p ∈ os ∧ idxOf os p < idxOf os n ∧ (look g.nodes p).isSome) := by
        intro p hp
        rcases hpar p hp with h1 | ⟨hpo, hpi, hps⟩
        · exact Or.inl h1
        · have hpne : p ≠ o := by
            intro hc
            rw [hc, hlo] at hps
            simp at hps
          have hpos : p ∈ os := by
            rcases List.mem_cons.mp hpo with hc | h
            · exact absurd hc hpne
            · exact h
          refine Or.inr ⟨hpos, ?_, hps⟩
          have hop : o ≠ p := fun hc => hpne hc.symm
          have hon : o ≠ n := fun hc => hne hc.symm
          have h1 : idxOf (o :: os) p = idxOf os p + 1 := by
            simp [idxOf, hop]
          have h2 : idxOf (o :: os) n = idxOf os n + 1 := by
            simp [idxOf, hon]
          omega
      simp only [computeAllHashesAux, hlo]
      exact ih acc hndos hfresh1 n node hnode hmos hpar1
    · -- the head id is a node: its hash is appended
      set phs := (getParents g o).filterMap (fun pid => look acc pid) with hphs
      set acc1 := acc ++ [(o, Node.computeHash sha nodeO phs)] with hacc1
      have hstep : computeAllHashesAux sha g (o :: os) acc =
          computeAllHashesAux sha g os acc1 := by
        simp only [computeAllHashesAux, hlo, hacc1, hphs]
      by_cases hno : n = o
      · -- the node of interest is processed right now
        subst hno
        have hnodeO : nodeO = node := by
          rw [hnode] at hlo
          exact (Option.some.inj hlo).symm
        have hidx_n : idxOf (n :: os) n = 0 := by
          simp [idxOf]
        have hallacc : ∀ p ∈ getParents g n, p ∈ keysOf acc := by
          intro p hp
          rcases hpar p hp with h1 | ⟨_, hpi, _⟩
          · exact h1
          · rw [hidx_n] at hpi
            omega
        have hlookn : look acc n = none :=
          (look_eq_none_iff acc n).mpr (hfresh n (List.mem_cons_self n os))
        have hacc1n : look acc1 n = some (Node.computeHash sha nodeO phs) := by
          rw [hacc1, look_append_none hlookn]
          simp [look]
        have hfinal_n : look (computeAllHashesAux sha g os acc1) n =
            some (Node.computeHash sha nodeO phs) :=
          computeAllHashesAux_mono sha g os acc1 n _ hacc1n
        have hparfinal : ∀ p ∈ getParents g n, ∃ v,
            look acc p = some v ∧
            look (computeAllHashesAux sha g os acc1) p = some v := by
          intro p hp
          have hksome : (look acc p).isSome := (look_isSome_iff acc p).mpr (hallacc p hp)
          rcases hv : look acc p with _ | v
          · rw [hv] at hksome
            simp at hksome
          · exact ⟨v, rfl, computeAllHashesAux_mono sha g os acc1 p v
              (look_append_some _ hv)⟩
        have hcongr : (getParents g n).filterMap (fun pid => look acc pid) =
            (getParents g n).filterMap
              (fun pid => look (computeAllHashesAux sha g os acc1) pid) := by
          apply filterMap_congr_mem
          intro p hp
          rcases hparfinal p hp with ⟨v, h1, h2⟩
          rw [h1, h2]
        constructor
        · intro p hp
          rcases hparfinal p hp with ⟨v, _, h2⟩
          rw [hstep, h2]
          rfl
        · rw [hstep, hfinal_n, hnodeO, hphs, hcongr]
      · -- deeper in the order: induction with the extended accumulator
        have hmos : n ∈ os := by
          rcases List.mem_cons.mp hmem with hc | h
          · exact absurd hc hno
          · exact h
        have hkeys1 : keysOf acc1 = keysOf acc ++ [o] := by
          rw [hacc1]
          simp [keysOf]
        have hfresh1 : ∀ x ∈ os, x ∉ keysOf acc1 := by
          intro x hx
          rw [hkeys1]
          intro hc
          rcases List.mem_append.mp hc with h1 | h2
          · exact hfresh x (List.mem_cons_of_mem o hx) h1
          · exact hoos ((List.mem_singleton.mp h2) ▸ hx)
        have hpar1 : ∀ p ∈ getParents g n,
            p ∈ keysOf acc1 ∨
              (p ∈ os ∧ idxOf os p < idxOf os n ∧ (look g.nodes p).isSome) := by
          intro p hp
          rcases hpar p hp with h1 | ⟨hpo, hpi, hps⟩
          · exact Or.inl (hkeys1 ▸ List.mem_append.mpr (Or.inl h1))
          · by_cases hpeq : p = o
            · exact Or.inl (hkeys1 ▸ List.mem_append.mpr (Or.inr (by simp [hpeq])))
            · have hpos : p ∈ os := by
                rcases List.mem_cons.mp hpo with hc | h
                · exact absurd hc hpeq
                · exact h
              refine Or.inr ⟨hpos, ?_, hps⟩
              have hop : o ≠ p := fun hc => hpeq hc.symm
              have hon : o ≠ n := fun hc => hno hc.symm
              have h1 : idxOf (o :: os) p = idxOf os p + 1 := by
                simp [idxOf, hop]
              have h2 : idxOf (o :: os) n = idxOf os n + 1 := by
                simp [idxOf, hon]
              omega
        rw [hstep]
        exact ih acc1 hndos hfresh1 n node hnode hmos hpar1

/-- C1 counterexample: in `gHashOrder` the two links into `c` are stored
as `[b→c (port z), a→c (port a)]`; sorted by `(dst_port, src_id)` the
spec's parent order is `[a, b]`, but compilation hashes parents in the
stored order `[b, a]`.  With the hash function instantiated to the
identity on byte buffers, the computed hash of `c` differs from the
claimed SHA-256 input. -/
theorem spec_c1_counterexample :
    kahnSort gHashOrder = .ok ["a", "b", "c"] ∧
    getParents gHashOrder "c" = ["b", "a"] ∧
    specParents gHashOrder "c" = ["a", "b"] ∧
    look (computeAllHashes id gHashOrder ["a", "b", "c"]) "c" =
      some (id (Node.hashInput ⟨"c", "Op::C", []⟩
        ((getParents gHashOrder "c").filterMap
          (fun pid => look (computeAllHashes id gHashOrder ["a", "b", "c"]) pid)))) ∧
    look (computeAllHashes id gHashOrder ["a", "b", "c"]) "c" ≠
      some (id (Node.hashInput ⟨"c", "Op::C", []⟩
        ((specParents gHashOrder "c").filterMap
          (fun pid => look (computeAllHashes id gHashOrder ["a", "b", "c"]) pid)))) := by
  refine ⟨by decide, by decide, by decide, by decide, by decide⟩

/-- C1 amended: for every hash function, graph, and duplicate-free
execution order in which each parent of `n` is a node occurring earlier
(as compilation of a validated graph guarantees), the hash recorded for
`n` is `sha` of: the UTF-8 bytes of `n`'s operation type, then for each
parameter key in lexicographic order the key's bytes followed by the
canonical JSON serialization of its value, then the hashes of `n`'s
parents concatenated in the order in which parents appear when scanning
the stored links list (`get_parents` order — not the `(dst_port,
src_id)`-sorted order the original claim states). -/
theorem spec_c1_node_hash (sha : List Nat → List Nat) (g : GraphDSL)
    (order : List String) (n : String) (node : Node)
    (hnd : order.Nodup)
    (hnode : look g.nodes n = some node)
    (hmem : n ∈ order)
    (hpar : ∀ p ∈ getParents g n,
      p ∈ order ∧ idxOf order p < idxOf order n ∧ (look g.nodes p).isSome) :
    (∀ p ∈ getParents g n, (look (computeAllHashes sha g order) p).isSome) ∧
    look (computeAllHashes sha g order) n =
      some (sha (Node.hashInput node
        ((getParents g n).filterMap
          (fun pid => look (computeAllHashes sha g order) pid)))) := by
  have := computeAllHashesAux_spec sha g order [] hnd (by simp [keysOf]) n node hnode hmem
    (fun p hp => Or.inr (hpar p hp))
  exact this

/-- Witness for C1 on the chain `n → m` with the identity hash
function. -/
theorem spec_c1_witness :
    (∀ p ∈ getParents gChainNM "m",
      (look (computeAllHashes id gChainNM ["n", "m"]) p).isSome) ∧
    look (computeAllHashes id gChainNM ["n", "m"]) "m" =
      some (id (Node.hashInput ⟨"m", "Op::M", []⟩
        ((getParents gChainNM "m").filterMap
          (fun pid => look (computeAllHashes id gChainNM ["n", "m"]) pid)))) :=
  spec_c1_node_hash id gChainNM ["n", "m"] "m" ⟨"m", "Op::M", []⟩
    (by decide) (by decide) (by decide) (by decide)

/-! ## Lemmas about the in-degree bookkeeping -/

theorem look_mem {β : Type} : ∀ {m : List (String × β)} {k : String} {v : β},
    look m k = some v → (k, v) ∈ m := by
  intro m
  induction m with
  | nil => intro k v h; simp [look] at h
  | cons p rest ih =>
    intro k v h
    obtain ⟨k1, v1⟩ := p
    by_cases hk : k1 = k
    · simp only [look, if_pos hk] at h
      exact List.mem_cons.mpr (Or.inl (by rw [hk, Option.some.inj h]))
    · simp only [look, if_neg hk] at h
      exact List.mem_cons.mpr (Or.inr (ih h))

theorem aupdate_of_look_none : ∀ {m : List (String × Nat)} {k : String} (v : Nat),
    look m k = none → aupdate m k v = m := by
  intro m
  induction m with
  | nil => intro k v _; rfl
  | cons p rest ih =>
    intro k v h
    obtain ⟨k1, v1⟩ := p
    by_cases hk : k1 = k
    · simp [look, hk] at h
    · simp only [look, if_neg hk] at h
      simp only [aupdate, if_neg hk]
      rw [ih v h]

theorem look_aupdate_self : ∀ {m : List (String × Nat)} {k : String} {d : Nat} (v : Nat),
    look m k = some d → look (aupdate m k v) k = some v := by
  intro m
  induction m with
  | nil => intro k d v h; simp [look] at h
  | cons p rest ih =>
    intro k d v h
    obtain ⟨k1, v1⟩ := p
    by_cases hk : k1 = k
    · simp [aupdate, look, hk]
    · simp only [look, if_neg hk] at h
      simp only [aupdate, if_neg hk, look]
      exact ih v h

theorem look_aupdate_other : ∀ {m : List (String × Nat)} {k k1 : String} (v : Nat),
    k1 ≠ k → look (aupdate m k v) k1 = look m k1 := by
  intro m
  induction m with
  | nil => intro k k1 v _; rfl
  | cons p rest ih =>
    intro k k1 v hne
    obtain ⟨k2, v2⟩ := p
    by_cases hk : k2 = k
    · subst hk
      have hne2 : ¬ (k2 = k1) := fun hc => hne hc.symm
      simp [aupdate, look, hne2]
    · simp only [aupdate, if_neg hk, look]
      by_cases hk1 : k2 = k1
      · simp [hk1]
      · simp only [if_neg hk1]
        exact ih v hne

theorem keysOf_aupdate : ∀ (m : List (String × Nat)) (k : String) (v : Nat),
    keysOf (aupdate m k v) = keysOf m := by
  intro m
  induction m with
  | nil => intro k v; rfl
  | cons p rest ih =>
    intro k v
    obtain ⟨k1, v1⟩ := p
    by_cases hk : k1 = k
    · simp [aupdate, keysOf, hk]
    · simp only [aupdate, if_neg hk, keysOf, List.map_cons]
      have hrest := ih k v
      simp only [keysOf] at hrest
      rw [hrest]

theorem countP_mono_imp {α : Type} {p q : α → Bool} :
    ∀ {l : List α}, (∀ x ∈ l, p x = true → q x = true) → l.countP p ≤ l.countP q := by
  intro l
  induction l with
  | nil => intro _; simp
  | cons x xs ih =>
    intro h
    rw [List.countP_cons, List.countP_cons]
    have hxs := ih (fun y hy => h y (List.mem_cons_of_mem x hy))
    by_cases hp : p x = true
    · have hq := h x (List.mem_cons_self x xs) hp
      simp [hp, hq]
      omega
    · simp only [Bool.not_eq_true] at hp
      simp [hp]
      omega

theorem countP_eq_all {α : Type} {p q : α → Bool} :
    ∀ {l : List α}, l.countP p = l.countP q →
      (∀ x ∈ l, p x = true → q x = true) →
      ∀ x ∈ l, q x = true → p x = true := by
  intro l
  induction l with
  | nil => intro _ _ x hx; simp at hx
  | cons y ys ih =>
    intro heq himp x hx hq
    have hmono_tail : ys.countP p ≤ ys.countP q :=
      countP_mono_imp (fun z hz => himp z (List.mem_cons_of_mem y hz))
    rw [List.countP_cons, List.countP_cons] at heq
    by_cases hpy : p y = true
    · have hqy := himp y (List.mem_cons_self y ys) hpy
      rcases List.mem_cons.mp hx with hxy | hxs
      · rw [hxy]; exact hpy
      · have htail : ys.countP p = ys.countP q := by
          simp [hpy, hqy] at heq
          omega
        exact ih htail (fun z hz => himp z (List.mem_cons_of_mem y hz)) x hxs hq
    · simp only [Bool.not_eq_true] at hpy
      by_cases hqy : q y = true
      · -- then countP p ≤ countP q tail, but head adds one to q: contradiction
        simp [hpy, hqy] at heq
        omega
      · simp only [Bool.not_eq_true] at hqy
        rcases List.mem_cons.mp hx with hxy | hxs
        · rw [hxy] at hq
          rw [hq] at hqy
          exact absurd hqy (by simp)
        · have htail : ys.countP p = ys.countP q := by
            simp [hpy, hqy] at heq
            omega
          exact ih htail (fun z hz => himp z (List.mem_cons_of_mem y hz)) x hxs hq

theorem countP_congr_mem {α : Type} {p q : α → Bool} :
    ∀ {l : List α}, (∀ x ∈ l, p x = q x) → l.countP p = l.countP q := by
  intro l
  induction l with
  | nil => intro _; rfl
  | cons x xs ih =>
    intro h
    rw [List.countP_cons, List.countP_cons, h x (List.mem_cons_self x xs),
      ih (fun y hy => h y (List.mem_cons_of_mem x hy))]

theorem doneCount_le (g : GraphDSL) (res : List String) (k : String) :
    doneCount g res k ≤ linkCount g k := by
  unfold doneCount linkCount
  apply countP_mono_imp
  intro l _ h
  simp only [Bool.and_eq_true, decide_eq_true_eq] at h
  simp [h.2]

theorem countP_or_disjoint {α : Type} {p q : α → Bool} :
    ∀ {l : List α}, (∀ x ∈ l, ¬(p x = true ∧ q x = true)) →
      l.countP (fun x => p x || q x) = l.countP p + l.countP q := by
  intro l
  induction l with
  | nil => intro _; rfl
  | cons x xs ih =>
    intro h
    rw [List.countP_cons, List.countP_cons, List.countP_cons,
      ih (fun y hy => h y (List.mem_cons_of_mem x hy))]
    have hx := h x (List.mem_cons_self x xs)
    by_cases hp : p x = true
    · have hq : q x = false := by
        by_contra hc
        exact hx ⟨hp, by simpa using hc⟩
      simp [hp, hq]
      omega
    · simp only [Bool.not_eq_true] at hp
      by_cases hq : q x = true
      · simp [hp, hq]
        omega
      · simp only [Bool.not_eq_true] at hq
        simp [hp, hq]

theorem doneCount_append_one (g : GraphDSL) {res : List String} {v : String}
    (hv : v ∉ res) (k : String) :
    doneCount g (res ++ [v]) k = doneCount g res k + outCount g v k := by
  unfold doneCount outCount
  have hcongr : g.links.countP
      (fun l => decide (l.source.1 ∈ res ++ [v]) && decide (l.target.1 = k)) =
      g.links.countP (fun l =>
        (decide (l.source.1 ∈ res) && decide (l.target.1 = k)) ||
        (decide (l.source.1 = v) && decide (l.target.1 = k))) := by
    apply countP_congr_mem
    intro l _
    by_cases h1 : l.source.1 ∈ res
    · by_cases h2 : l.source.1 = v
      · exact absurd (h2 ▸ h1) hv
      · simp [h1, h2]
    · by_cases h2 : l.source.1 = v
      · simp [h1, h2]
      · simp [h1, h2]
  rw [hcongr]
  apply countP_or_disjoint
  intro l _
  rintro ⟨h1, h2⟩
  simp only [Bool.and_eq_true, decide_eq_true_eq] at h1 h2
  exact hv (h2.1 ▸ h1.1)

theorem occ_children_eq (g : GraphDSL) (v k : String) :
    countOcc (getChildren g v) k = outCount g v k := by
  unfold countOcc getChildren outCount
  rw [List.countP_map, List.countP_filter]
  apply countP_congr_mem
  intro l _
  simp only [Function.comp]
  by_cases h1 : l.target.1 = k
  · by_cases h2 : l.source.1 = v
    · simp [h1, h2]
    · simp [h1, h2]
  · by_cases h2 : l.source.1 = v
    · simp [h1, h2]
    · simp [h1, h2]

theorem done_eq_link_sources (g : GraphDSL) {res : List String} {k : String}
    (h : doneCount g res k = linkCount g k) :
    ∀ l ∈ g.links, l.target.1 = k → l.source.1 ∈ res := by
  unfold doneCount linkCount at h
  intro l hl htgt
  have := countP_eq_all (p := fun l => decide (l.source.1 ∈ res) && decide (l.target.1 = k))
    (q := fun l => decide (l.target.1 = k)) (l := g.links)
    h
    (by
      intro x _ hx
      simp only [Bool.and_eq_true, decide_eq_true_eq] at hx
      simp [hx.2])
    l hl (by simp [htgt])
  simp only [Bool.and_eq_true, decide_eq_true_eq] at this
  exact this.1

/-! ## Kahn invariant preservation -/

theorem countOcc_nil (k : String) : countOcc [] k = 0 := rfl

theorem countOcc_cons (c : String) (s : List String) (k : String) :
    countOcc (c :: s) k = countOcc s k + (if c = k then 1 else 0) := by
  unfold countOcc
  rw [List.countP_cons]
  by_cases h : c = k
  · simp [h]
  · simp [h]

theorem length_le_of_nodup_subset {l1 l2 : List String} (h1 : l1.Nodup)
    (hsub : ∀ x ∈ l1, x ∈ l2) (h2 : l2.Nodup) : l1.length ≤ l2.length := by
  have hc1 : l1.toFinset.card = l1.length := List.toFinset_card_of_nodup h1
  have hc2 : l2.toFinset.card = l2.length := List.toFinset_card_of_nodup h2
  have hsub2 : l1.toFinset ⊆ l2.toFinset := by
    intro x hx
    rw [List.mem_toFinset] at hx ⊢
    exact hsub x hx
  calc l1.length = l1.toFinset.card := hc1.symm
    _ ≤ l2.toFinset.card := Finset.card_le_card hsub2
    _ = l2.length := hc2

theorem kahn_pop_inv (g : GraphDSL) {ind0 ind : List (String × Nat)}
    {q res : List String} {v : String} {q1 : List String}
    (hinv : KahnInv g ind0 ind q res [])
    (hq : q.Perm (v :: q1)) :
    KahnInv g ind0 ind q1 (res ++ [v]) (getChildren g v) := by
  have hvq : v ∈ q := hq.symm.subset (List.mem_cons_self v q1)
  have hperm : (res ++ q).Perm ((res ++ [v]) ++ q1) := by
    have h1 : (res ++ q).Perm (res ++ (v :: q1)) := hq.append_left res
    have h2 : (res ++ [v]) ++ q1 = res ++ (v :: q1) := by simp
    rw [h2]
    exact h1
  have hvres : v ∉ res := by
    have hnd := hinv.nodup
    have hdisj := List.disjoint_of_nodup_append hnd
    exact fun hc => hdisj hc hvq
  refine ⟨hinv.keys_eq, ?_, ?_, ?_, ?_, ?_, ?_⟩
  · exact hperm.nodup hinv.nodup
  · intro x hx
    exact hinv.mem_keys x (hperm.symm.subset hx)
  · intro k d hk
    have h0 := hinv.deg_eq k d hk
    rw [countOcc_nil] at h0
    rw [doneCount_append_one g hvres k, occ_children_eq]
    omega
  · intro x hx
    exact hinv.found_zero x (hperm.symm.subset hx)
  · intro k hk h0
    rcases hinv.zero_found k hk h0 with h1 | h2
    · exact Or.inl (List.mem_append.mpr (Or.inl h1))
    · rcases List.mem_cons.mp (hq.subset h2) with h3 | h4
      · exact Or.inl (List.mem_append.mpr (Or.inr (by simp [h3])))
      · exact Or.inr h4
  · intro v2 hv2 l hl htgt
    rcases List.mem_append.mp hv2 with hv2r | hv2v
    · obtain ⟨hsrc, hidx⟩ := hinv.res_order v2 hv2r l hl htgt
      refine ⟨List.mem_append.mpr (Or.inl hsrc), ?_⟩
      rw [idxOf_append_left _ hsrc, idxOf_append_left _ hv2r]
      exact hidx
    · have hv2eq : v2 = v := by simpa using hv2v
      subst hv2eq
      have hdeg0 : look ind v2 = some 0 :=
        hinv.found_zero v2 (List.mem_append.mpr (Or.inr hvq))
      have hde := hinv.deg_eq v2 0 hdeg0
      rw [countOcc_nil] at hde
      have hdone : doneCount g res v2 = linkCount g v2 := by omega
      have hsrc : l.source.1 ∈ res := done_eq_link_sources g hdone l hl htgt
      refine ⟨List.mem_append.mpr (Or.inl hsrc), ?_⟩
      rw [idxOf_append_left _ hsrc, idxOf_append_right _ hvres]
      have := idxOf_lt_length hsrc
      simp [idxOf]
      omega

theorem kahnStep_fold_inv (g : GraphDSL) (ind0 : List (String × Nat))
    (enq : List String → String → List String)
    (Henq : ∀ q c, (enq q c).Perm (q ++ [c])) (res : List String) :
    ∀ (cs : List String) (ind : List (String × Nat)) (q : List String),
      KahnInv g ind0 ind q res cs →
      KahnInv g ind0
        (cs.foldl (fun st child =>
          match look st.1 child with
          | some deg =>
            let d := deg - 1
            let ind1 := aupdate st.1 child d
            if d = 0 then (ind1, enq st.2 child) else (ind1, st.2)
          | none => st) (ind, q)).1
        (cs.foldl (fun st child =>
          match look st.1 child with
          | some deg =>
            let d := deg - 1
            let ind1 := aupdate st.1 child d
            if d = 0 then (ind1, enq st.2 child) else (ind1, st.2)
          | none => st) (ind, q)).2
        res [] := by
  intro cs
  induction cs with
  | nil =>
    intro ind q hinv
    exact hinv
  | cons c s1 ih =>
    intro ind q hinv
    rw [List.foldl_cons]
    rcases hc : look ind c with _ | deg
    · -- the child is not a key of the in-degree map: nothing happens
      simp only [hc]
      apply ih
      refine ⟨hinv.keys_eq, hinv.nodup, hinv.mem_keys, ?_, hinv.found_zero,
        hinv.zero_found, hinv.res_order⟩
      intro k d hk
      have h0 := hinv.deg_eq k d hk
      have hkc : ¬ (c = k) := by
        intro hbad
        rw [← hbad, hc] at hk
        exact Option.noConfusion hk
      rw [countOcc_cons, if_neg hkc] at h0
      omega
    · -- the child is a key: decrement, possibly enqueue
      have hde := hinv.deg_eq c deg hc
      rw [countOcc_cons, if_pos rfl] at hde
      have hle := doneCount_le g res c
      have hge1 : 1 ≤ deg := by omega
      have hcfresh : c ∉ res ++ q := by
        intro hcm
        have hz := hinv.found_zero c hcm
        rw [hc] at hz
        have : deg = 0 := Option.some.inj hz
        omega
      have hlook1self : look (aupdate ind c (deg - 1)) c = some (deg - 1) :=
        look_aupdate_self _ hc
      have hlook1other : ∀ k, k ≠ c → look (aupdate ind c (deg - 1)) k = look ind k :=
        fun k hk => look_aupdate_other _ hk
      have hkeys1 : keysOf (aupdate ind c (deg - 1)) = keysOf ind0 := by
        rw [keysOf_aupdate]
        exact hinv.keys_eq
      have hdeg1 : ∀ k d, look (aupdate ind c (deg - 1)) k = some d →
          d + doneCount g res k = linkCount g k + countOcc s1 k := by
        intro k d hk
        by_cases hkc : k = c
        · subst hkc
          rw [hlook1self] at hk
          have hdval : deg - 1 = d := Option.some.inj hk
          omega
        · rw [hlook1other k hkc] at hk
          have h0 := hinv.deg_eq k d hk
          rw [countOcc_cons, if_neg (fun hb : c = k => hkc hb.symm)] at h0
          omega
      have hcmem : c ∈ keysOf ind0 := by
        rw [← hinv.keys_eq]
        exact (look_isSome_iff ind c).mp (by rw [hc]; rfl)
      by_cases hd : deg - 1 = 0
      · -- the degree hit zero: enqueue the child
        simp only [hc]
        rw [if_pos hd]
        apply ih
        have hqperm : (res ++ enq q c).Perm ((res ++ q) ++ [c]) := by
          have h1 := (Henq q c).append_left res
          simpa [List.append_assoc] using h1
        have hnodup2 : (res ++ enq q c).Nodup := by
          apply hqperm.symm.nodup
          apply List.Nodup.append hinv.nodup (List.nodup_singleton c)
          intro x hx hx2
          rw [List.mem_singleton] at hx2
          exact hcfresh (hx2 ▸ hx)
        refine ⟨hkeys1, hnodup2, ?_, hdeg1, ?_, ?_, hinv.res_order⟩
        · intro x hx
          rcases List.mem_append.mp (hqperm.subset hx) with h1 | h2
          · exact hinv.mem_keys x h1
          · rw [List.mem_singleton] at h2
            exact h2 ▸ hcmem
        · intro x hx
          rcases List.mem_append.mp (hqperm.subset hx) with h1 | h2
          · have hxc : x ≠ c := fun hb => hcfresh (hb ▸ h1)
            rw [hlook1other x hxc]
            exact hinv.found_zero x h1
          · rw [List.mem_singleton] at h2
            rw [h2, hlook1self, hd]
        · intro k hk h0
          by_cases hkc : k = c
          · subst hkc
            refine Or.inr ?_
            exact (Henq q k).symm.subset (List.mem_append.mpr (Or.inr (by simp)))
          · rw [hlook1other k hkc] at h0
            rcases hinv.zero_found k hk h0 with h1 | h2
            · exact Or.inl h1
            · exact Or.inr ((Henq q c).symm.subset (List.mem_append.mpr (Or.inl h2)))
      · -- the degree is still positive: only the map changes
        simp only [hc]
        rw [if_neg hd]
        apply ih
        refine ⟨hkeys1, hinv.nodup, hinv.mem_keys, hdeg1, ?_, ?_, hinv.res_order⟩
        · intro x hx
          have hxc : x ≠ c := fun hb => hcfresh (hb ▸ hx)
          rw [hlook1other x hxc]
          exact hinv.found_zero x hx
        · intro k hk h0
          by_cases hkc : k = c
          · subst hkc
            rw [hlook1self] at h0
            exact absurd (Option.some.inj h0) hd
          · rw [hlook1other k hkc] at h0
            exact hinv.zero_found k hk h0

theorem kahn_iter_inv (g : GraphDSL) {ind0 : List (String × Nat)}
    {enq : List String → String → List String}
    (Henq : ∀ q c, (enq q c).Perm (q ++ [c]))
    {ind : List (String × Nat)} {q res : List String} {v : String} {q1 : List String}
    (hinv : KahnInv g ind0 ind q res [])
    (hq : q.Perm (v :: q1)) :
    KahnInv g ind0 (kahnStep g enq ind q1 v).1 (kahnStep g enq ind q1 v).2
      (res ++ [v]) [] := by
  have h1 := kahn_pop_inv g hinv hq
  exact kahnStep_fold_inv g ind0 enq Henq (res ++ [v]) (getChildren g v) ind q1 h1

theorem kahnLoop_inv (g : GraphDSL) (ind0 : List (String × Nat))
    (deq : List String → Option (String × List String))
    (enq : List String → String → List String)
    (Hdeq_some : ∀ q v q1, deq q = some (v, q1) → q.Perm (v :: q1))
    (Hdeq_none : ∀ q, deq q = none → q = [])
    (Henq : ∀ q c, (enq q c).Perm (q ++ [c]))
    (hknd : (keysOf ind0).Nodup) :
    ∀ (fuel : Nat) (ind : List (String × Nat)) (q res : List String),
      KahnInv g ind0 ind q res [] →
      (keysOf ind0).length < fuel + res.length →
      KahnInv g ind0 (kahnLoop g deq enq fuel ind q res).1 []
        (kahnLoop g deq enq fuel ind q res).2 [] := by
  intro fuel
  induction fuel with
  | zero =>
    intro ind q res hinv hlen
    have hres_nd : res.Nodup := (List.nodup_append.mp hinv.nodup).1
    have hres_sub : ∀ x ∈ res, x ∈ keysOf ind0 := by
      intro x hx
      exact hinv.mem_keys x (List.mem_append.mpr (Or.inl hx))
    have := length_le_of_nodup_subset hres_nd hres_sub hknd
    omega
  | succ fuel ih =>
    intro ind q res hinv hlen
    rcases hdeq : deq q with _ | ⟨v, q1⟩
    · have hqnil : q = [] := Hdeq_none q hdeq
      subst hqnil
      have hval : kahnLoop g deq enq (fuel + 1) ind [] res = (ind, res) := by
        simp [kahnLoop, hdeq]
      rw [hval]
      exact hinv
    · have hperm := Hdeq_some q v q1 hdeq
      have hstep := kahn_iter_inv g Henq hinv hperm
      have hval : kahnLoop g deq enq (fuel + 1) ind q res =
          kahnLoop g deq enq fuel (kahnStep g enq ind q1 v).1
            (kahnStep g enq ind q1 v).2 (res ++ [v]) := by
        simp [kahnLoop, hdeq]
      rw [hval]
      apply ih _ _ _ hstep
      simp only [List.length_append, List.length_singleton]
      omega

theorem popBack_some {q : List String} {v : String} {q1 : List String}
    (h : popBack q = some (v, q1)) : q.Perm (v :: q1) := by
  unfold popBack at h
  rcases hrev : q.reverse with _ | ⟨x, rest⟩
  · rw [hrev] at h
    exact Option.noConfusion h
  · rw [hrev] at h
    have hx : x = v ∧ rest.reverse = q1 := by
      have := Option.some.inj h
      exact ⟨congrArg Prod.fst this, congrArg Prod.snd this⟩
    have hq : q = rest.reverse ++ [x] := by
      have := congrArg List.reverse hrev
      simpa using this
    rw [hq, hx.1, ← hx.2]
    exact List.perm_append_singleton v rest.reverse

theorem popBack_none {q : List String} (h : popBack q = none) : q = [] := by
  unfold popBack at h
  rcases hrev : q.reverse with _ | ⟨x, rest⟩
  · have := congrArg List.reverse hrev
    simpa using this
  · rw [hrev] at h
    exact Option.noConfusion h

theorem popFront_some {q : List String} {v : String} {q1 : List String}
    (h : popFront q = some (v, q1)) : q.Perm (v :: q1) := by
  rcases q with _ | ⟨x, xs⟩
  · exact Option.noConfusion h
  · have h2 := Option.some.inj h
    have hx : x = v := congrArg Prod.fst h2
    have hxs : xs = q1 := congrArg Prod.snd h2
    rw [hx, hxs]

theorem popFront_none {q : List String} (h : popFront q = none) : q = [] := by
  rcases q with _ | ⟨x, xs⟩
  · rfl
  · exact Option.noConfusion h

theorem enqSorted_perm (q : List String) (c : String) :
    (enqSorted q c).Perm (q ++ [c]) :=
  List.perm_insertionSort _ _

theorem enqBack_perm (q : List String) (c : String) :
    (enqBack q c).Perm (q ++ [c]) :=
  List.Perm.refl _

/-! ## Cycles from everywhere-preceded sets -/

theorem countP_lt_exists {α : Type} {p q : α → Bool} {l : List α}
    (h : l.countP p < l.countP q) : ∃ x ∈ l, q x = true ∧ p x = false := by
  by_contra hc
  push_neg at hc
  have hmono : l.countP q ≤ l.countP p := by
    apply countP_mono_imp
    intro x hx hq
    have := hc x hx hq
    simpa using this
  omega

theorem linkStep_iff_child (g : GraphDSL) (u v : String) :
    LinkStep g u v ↔ v ∈ getChildren g u := by
  unfold LinkStep getChildren
  constructor
  · rintro ⟨l, hl, hsrc, htgt⟩
    refine List.mem_map.mpr ⟨l, ?_, htgt⟩
    rw [List.mem_filter]
    exact ⟨hl, by simp [hsrc]⟩
  · intro h
    rcases List.mem_map.mp h with ⟨l, hl, htgt⟩
    rw [List.mem_filter] at hl
    refine ⟨l, hl.1, ?_, htgt⟩
    have := hl.2
    simpa using this

theorem cycle_of_pred (S : List String) (hne : S ≠ []) (R : String → String → Prop)
    (hpred : ∀ x ∈ S, ∃ y ∈ S, R y x) : ∃ x, Relation.TransGen R x x := by
  classical
  have hstep : ∀ x : {x // x ∈ S}, ∃ y : {y // y ∈ S}, R y.val x.val := by
    rintro ⟨x, hx⟩
    rcases hpred x hx with ⟨y, hy, hr⟩
    exact ⟨⟨y, hy⟩, hr⟩
  choose nxt hnxt using hstep
  obtain ⟨x0, hx0⟩ : ∃ x, x ∈ S := by
    rcases S with _ | ⟨a, as⟩
    · exact absurd rfl hne
    · exact ⟨a, List.mem_cons_self a as⟩
  have hfs : ∀ n : Nat, R (nxt^[n + 1] ⟨x0, hx0⟩).val (nxt^[n] ⟨x0, hx0⟩).val := by
    intro n
    rw [Function.iterate_succ_apply']
    exact hnxt (nxt^[n] ⟨x0, hx0⟩)
  have hchain : ∀ d i : Nat,
      Relation.TransGen R (nxt^[i + d + 1] ⟨x0, hx0⟩).val (nxt^[i] ⟨x0, hx0⟩).val := by
    intro d
    induction d with
    | zero =>
      intro i
      exact Relation.TransGen.single (hfs i)
    | succ d ihd =>
      intro i
      have h1 : R (nxt^[i + d + 1 + 1] ⟨x0, hx0⟩).val (nxt^[i + d + 1] ⟨x0, hx0⟩).val :=
        hfs (i + d + 1)
      have h2 := ihd i
      have h3 : Relation.TransGen R (nxt^[i + d + 1 + 1] ⟨x0, hx0⟩).val
          (nxt^[i] ⟨x0, hx0⟩).val := Relation.TransGen.head h1 h2
      have harith : i + (d + 1) + 1 = i + d + 1 + 1 := by omega
      rw [harith]
      exact h3
  have hmap : ∀ i : Fin (S.length + 1), i ∈ (Finset.univ : Finset (Fin (S.length + 1))) →
      (nxt^[i.val] ⟨x0, hx0⟩).val ∈ S.toFinset := by
    intro i _
    rw [List.mem_toFinset]
    exact (nxt^[i.val] ⟨x0, hx0⟩).property
  have hcard : S.toFinset.card < (Finset.univ : Finset (Fin (S.length + 1))).card := by
    rw [Finset.card_univ, Fintype.card_fin]
    exact Nat.lt_succ_of_le (List.toFinset_card_le S)
  obtain ⟨i, _, j, _, hij, heq⟩ :=
    Finset.exists_ne_map_eq_of_card_lt_of_maps_to hcard hmap
  have hvalne : i.val ≠ j.val := fun hv => hij (Fin.ext hv)
  rcases Nat.lt_or_ge i.val j.val with hlt | hge
  · have harith : j.val = i.val + (j.val - i.val - 1) + 1 := by omega
    have hc := hchain (j.val - i.val - 1) i.val
    rw [← harith] at hc
    rw [← heq] at hc
    exact ⟨(nxt^[i.val] ⟨x0, hx0⟩).val, hc⟩
  · have hlt2 : j.val < i.val := by omega
    have harith : i.val = j.val + (i.val - j.val - 1) + 1 := by omega
    have hc := hchain (i.val - j.val - 1) j.val
    rw [← harith] at hc
    rw [heq] at hc
    exact ⟨(nxt^[j.val] ⟨x0, hx0⟩).val, hc⟩

/-! ## Initial in-degree maps -/

theorem look_initZero_mem {ks : List String} {k : String} (h : k ∈ ks) :
    look (initZero ks) k = some 0 := by
  induction ks with
  | nil => simp at h
  | cons x xs ih =>
    by_cases hx : x = k
    · simp [initZero, look, hx]
    · rcases List.mem_cons.mp h with h1 | h2
      · exact absurd h1.symm hx
      · simp only [initZero, List.map_cons, look, if_neg hx]
        exact ih h2

theorem look_initZero_not {ks : List String} {k : String} (h : k ∉ ks) :
    look (initZero ks) k = none := by
  induction ks with
  | nil => rfl
  | cons x xs ih =>
    have hx : x ≠ k := fun hc => h (hc ▸ List.mem_cons_self x xs)
    have hxs : k ∉ xs := fun hc => h (List.mem_cons_of_mem x hc)
    simp only [initZero, List.map_cons, look, if_neg hx]
    exact ih hxs

theorem keysOf_initZero (ks : List String) : keysOf (initZero ks) = ks := by
  induction ks with
  | nil => rfl
  | cons x xs ih =>
    simp only [initZero, List.map_cons, keysOf] at ih ⊢
    rw [ih]

theorem look_bump_self : ∀ (m : List (String × Nat)) (k : String),
    look (bump m k) k = some ((look m k).getD 0 + 1) := by
  intro m
  induction m with
  | nil => intro k; simp [bump, look]
  | cons p rest ih =>
    intro k
    obtain ⟨k1, d⟩ := p
    by_cases hk : k1 = k
    · simp [bump, look, hk]
    · simp only [bump, if_neg hk, look]
      exact ih k

theorem look_bump_other : ∀ (m : List (String × Nat)) {k k1 : String},
    k1 ≠ k → look (bump m k) k1 = look m k1 := by
  intro m
  induction m with
  | nil =>
    intro k k1 hne
    have h2 : ¬ (k = k1) := fun hc => hne hc.symm
    simp [bump, look, h2]
  | cons p rest ih =>
    intro k k1 hne
    obtain ⟨k2, d⟩ := p
    by_cases hk : k2 = k
    · subst hk
      have hne2 : ¬ (k2 = k1) := fun hc => hne hc.symm
      simp [bump, look, hne2]
    · simp only [bump, if_neg hk, look]
      by_cases hk1 : k2 = k1
      · simp [hk1]
      · rw [if_neg hk1, if_neg hk1]
        exact ih hne

theorem keysOf_bump (m : List (String × Nat)) (k : String) :
    keysOf (bump m k) = if k ∈ keysOf m then keysOf m else keysOf m ++ [k] := by
  induction m with
  | nil => simp [bump, keysOf]
  | cons p rest ih =>
    obtain ⟨k1, d⟩ := p
    by_cases hk : k1 = k
    · simp [bump, keysOf, hk]
    · have hk2 : ¬ (k = k1) := fun hc => hk hc.symm
      simp only [bump, if_neg hk, keysOf, List.map_cons, List.mem_cons, hk2, false_or]
      simp only [keysOf] at ih
      by_cases hmem : k ∈ List.map Prod.fst rest
      · simp [hmem, ih]
      · simp [hmem, ih]

theorem keysOf_bump_nodup {m : List (String × Nat)} (h : (keysOf m).Nodup)
    (k : String) : (keysOf (bump m k)).Nodup := by
  rw [keysOf_bump]
  by_cases hmem : k ∈ keysOf m
  · simp [hmem, h]
  · simp only [hmem, if_neg, if_false]
    apply List.Nodup.append h (List.nodup_singleton k)
    intro x hx hx2
    rw [List.mem_singleton] at hx2
    exact hmem (hx2 ▸ hx)

theorem foldl_bump_look_some :
    ∀ (ls : List Link) (m : List (String × Nat)) (k : String) (d : Nat),
      look m k = some d →
      look (ls.foldl (fun m l => bump m l.target.1) m) k =
        some (d + ls.countP (fun l => l.target.1 = k)) := by
  intro ls
  induction ls with
  | nil =>
    intro m k d h
    simpa using h
  | cons l rest ih =>
    intro m k d h
    rw [List.foldl_cons]
    by_cases hk : l.target.1 = k
    · have hself : look (bump m l.target.1) k = some (d + 1) := by
        rw [hk, look_bump_self, h]
        rfl
      rw [ih _ k (d + 1) hself]
      rw [List.countP_cons]
      simp [hk]
      omega
    · have hother : look (bump m l.target.1) k = some d := by
        rw [look_bump_other m (fun hc : k = l.target.1 => hk hc.symm), h]
      rw [ih _ k d hother]
      rw [List.countP_cons]
      simp [hk]

theorem foldl_bump_keys_nodup :
    ∀ (ls : List Link) {m : List (String × Nat)}, (keysOf m).Nodup →
      (keysOf (ls.foldl (fun m l => bump m l.target.1) m)).Nodup := by
  intro ls
  induction ls with
  | nil => intro m h; exact h
  | cons l rest ih =>
    intro m h
    rw [List.foldl_cons]
    exact ih (keysOf_bump_nodup h l.target.1)

theorem foldl_bump_keys_sub :
    ∀ (ls : List Link) (m : List (String × Nat)) (k : String),
      k ∈ keysOf (ls.foldl (fun m l => bump m l.target.1) m) →
      k ∈ keysOf m ∨ k ∈ ls.map (fun l => l.target.1) := by
  intro ls
  induction ls with
  | nil =>
    intro m k h
    exact Or.inl h
  | cons l rest ih =>
    intro m k h
    rw [List.foldl_cons] at h
    rcases ih _ k h with h1 | h2
    · rw [keysOf_bump] at h1
      by_cases hmem : l.target.1 ∈ keysOf m
      · rw [if_pos hmem] at h1
        exact Or.inl h1
      · rw [if_neg hmem] at h1
        rcases List.mem_append.mp h1 with h3 | h4
        · exact Or.inl h3
        · rw [List.mem_singleton] at h4
          exact Or.inr (by simp [h4])
    · exact Or.inr (List.mem_cons_of_mem _ h2)

theorem keysOf_bumpIfPresent (m : List (String × Nat)) (k : String) :
    keysOf (bumpIfPresent m k) = keysOf m := by
  induction m with
  | nil => rfl
  | cons p rest ih =>
    obtain ⟨k1, d⟩ := p
    by_cases hk : k1 = k
    · simp [bumpIfPresent, keysOf, hk]
    · simp only [bumpIfPresent, if_neg hk, keysOf, List.map_cons]
      simp only [keysOf] at ih
      rw [ih]

theorem look_bumpIfPresent_self : ∀ (m : List (String × Nat)) (k : String),
    look (bumpIfPresent m k) k = (look m k).map (· + 1) := by
  intro m
  induction m with
  | nil => intro k; rfl
  | cons p rest ih =>
    intro k
    obtain ⟨k1, d⟩ := p
    by_cases hk : k1 = k
    · simp [bumpIfPresent, look, hk]
    · simp only [bumpIfPresent, if_neg hk, look]
      exact ih k

theorem look_bumpIfPresent_other : ∀ (m : List (String × Nat)) {k k1 : String},
    k1 ≠ k → look (bumpIfPresent m k) k1 = look m k1 := by
  intro m
  induction m with
  | nil => intro k k1 _; rfl
  | cons p rest ih =>
    intro k k1 hne
    obtain ⟨k2, d⟩ := p
    by_cases hk : k2 = k
    · subst hk
      have hne2 : ¬ (k2 = k1) := fun hc => hne hc.symm
      simp [bumpIfPresent, look, hne2]
    · simp only [bumpIfPresent, if_neg hk, look]
      by_cases hk1 : k2 = k1
      · simp [hk1]
      · rw [if_neg hk1, if_neg hk1]
        exact ih hne

theorem foldl_bumpIfPresent_look :
    ∀ (ls : List Link) (m : List (String × Nat)) (k : String),
      look (ls.foldl (fun m l => bumpIfPresent m l.target.1) m) k =
        (look m k).map (· + ls.countP (fun l => l.target.1 = k)) := by
  intro ls
  induction ls with
  | nil =>
    intro m k
    rcases h : look m k with _ | d <;> simp [h]
  | cons l rest ih =>
    intro m k
    rw [List.foldl_cons, ih]
    rw [List.countP_cons]
    by_cases hk : l.target.1 = k
    · rw [hk, look_bumpIfPresent_self]
      rcases h : look m k with _ | d <;> simp [h, hk]
      omega
    · rw [look_bumpIfPresent_other m (fun hc : k = l.target.1 => hk hc.symm)]
      simp [hk]

/-! ## Final-state consequences of the Kahn invariant -/

theorem doneCount_nil (g : GraphDSL) (k : String) : doneCount g [] k = 0 := by
  unfold doneCount
  rw [List.countP_eq_zero]
  intro l _
  simp

theorem transGen_reflTransGen {α : Type} {r : α → α → Prop} {a b c : α}
    (h1 : Relation.TransGen r a b) (h2 : Relation.ReflTransGen r b c) :
    Relation.TransGen r a c := by
  induction h2 with
  | refl => exact h1
  | tail _ hstep ih => exact Relation.TransGen.tail ih hstep

theorem transGen_decompose_last {α : Type} {r : α → α → Prop} {a c : α}
    (h : Relation.TransGen r a c) :
    ∃ b, Relation.ReflTransGen r a b ∧ r b c := by
  induction h with
  | single hac => exact ⟨a, Relation.ReflTransGen.refl, hac⟩
  | tail hab hbc ih =>
    rename_i b2 c2
    exact ⟨b2, hab.to_reflTransGen, hbc⟩

theorem res_order_no_cycle (g : GraphDSL) {res : List String}
    (hord : ∀ v ∈ res, ∀ l ∈ g.links, l.target.1 = v →
      l.source.1 ∈ res ∧ idxOf res l.source.1 < idxOf res v) :
    ∀ v ∈ res, ¬ Relation.TransGen (LinkStep g) v v := by
  have main : ∀ n, ∀ v ∈ res, idxOf res v = n →
      ¬ Relation.TransGen (LinkStep g) v v := by
    intro n
    induction n using Nat.strong_induction_on with
    | _ n ih =>
      intro v hv hidx hcyc
      obtain ⟨u, hvu, hedge⟩ := transGen_decompose_last hcyc
      obtain ⟨l, hl, hsrc, htgt⟩ := hedge
      obtain ⟨humem, hult⟩ := hord v hv l hl htgt
      rw [hsrc] at humem hult
      have hu_cyc : Relation.TransGen (LinkStep g) u u :=
        transGen_reflTransGen (Relation.TransGen.single ⟨l, hl, hsrc, htgt⟩) hvu
      exact ih (idxOf res u) (hidx ▸ hult) u humem rfl hu_cyc
  exact fun v hv => main (idxOf res v) v hv rfl

theorem kahn_final_perm (g : GraphDSL) {ind0 ind : List (String × Nat)}
    {res : List String}
    (hinv : KahnInv g ind0 ind [] res [])
    (hknd : (keysOf ind0).Nodup)
    (hacyc : Acyclic g)
    (hsrc : ∀ l ∈ g.links, l.source.1 ∈ keysOf ind0) :
    res.Perm (keysOf ind0) := by
  have hall : ∀ k ∈ keysOf ind0, k ∈ res := by
    by_contra hc
    push_neg at hc
    set S := (keysOf ind0).filter (fun k => decide (k ∉ res)) with hS
    have hSmem : ∀ x, x ∈ S ↔ x ∈ keysOf ind0 ∧ x ∉ res := by
      intro x
      rw [hS, List.mem_filter]
      simp
    have hSne : S ≠ [] := by
      rcases hc with ⟨k, hk, hkres⟩
      intro hnil
      have hkS : k ∈ S := (hSmem k).mpr ⟨hk, hkres⟩
      rw [hnil] at hkS
      simp at hkS
    have hpred : ∀ x ∈ S, ∃ y ∈ S, LinkStep g y x := by
      intro x hx
      obtain ⟨hxk, hxres⟩ := (hSmem x).mp hx
      have hlook : (look ind x).isSome := by
        rw [look_isSome_iff, hinv.keys_eq]
        exact hxk
      rcases hlk : look ind x with _ | d
      · rw [hlk] at hlook
        simp at hlook
      · have hdne : d ≠ 0 := by
          intro h0
          rcases hinv.zero_found x hxk (h0 ▸ hlk) with h1 | h2
          · exact hxres h1
          · simp at h2
        have hde := hinv.deg_eq x d hlk
        rw [countOcc_nil] at hde
        have hlt : doneCount g res x < linkCount g x := by omega
        unfold doneCount linkCount at hlt
        obtain ⟨l, hl, hq, hp⟩ := countP_lt_exists hlt
        simp only [decide_eq_true_eq] at hq
        have hsrcnot : l.source.1 ∉ res := by
          intro hcon
          have hco : (decide (l.source.1 ∈ res) && decide (l.target.1 = x)) = true := by
            simp [hcon, hq]
          rw [hp] at hco
          exact Bool.noConfusion hco
        refine ⟨l.source.1, ?_, ⟨l, hl, rfl, hq⟩⟩
        exact (hSmem l.source.1).mpr ⟨hsrc l hl, hsrcnot⟩
    obtain ⟨x, hx⟩ := cycle_of_pred S hSne (LinkStep g) hpred
    exact hacyc x hx
  have hres_nd : res.Nodup := by
    have := hinv.nodup
    rw [List.append_nil] at this
    exact this
  have hsub1 : ∀ x ∈ res, x ∈ keysOf ind0 := by
    intro x hx
    exact hinv.mem_keys x (List.mem_append.mpr (Or.inl hx))
  rw [List.perm_ext_iff_of_nodup hres_nd hknd]
  intro a
  exact ⟨fun h => hsub1 a h, fun h => hall a h⟩

/-! ## Initial states of the two Kahn runs -/

theorem foldl_bump_look_none :
    ∀ (ls : List Link) (m : List (String × Nat)) (k : String),
      look m k = none →
      look (ls.foldl (fun m l => bump m l.target.1) m) k =
        if ls.countP (fun l => l.target.1 = k) = 0 then none
        else some (ls.countP (fun l => l.target.1 = k)) := by
  intro ls
  induction ls with
  | nil =>
    intro m k h
    simpa using h
  | cons l rest ih =>
    intro m k h
    rw [List.foldl_cons, List.countP_cons]
    by_cases hk : l.target.1 = k
    · have hself : look (bump m l.target.1) k = some 1 := by
        rw [hk, look_bump_self, h]
        rfl
      rw [foldl_bump_look_some rest _ k 1 hself]
      have hcnt : (if (fun l => decide (l.target.1 = k)) l = true then 1 else 0) = 1 := by
        simp [hk]
      rw [hcnt]
      rw [if_neg (by omega)]
      congr 1
      omega
    · have hother : look (bump m l.target.1) k = none := by
        rw [look_bump_other m (fun hc : k = l.target.1 => hk hc.symm)]
        exact h
      rw [ih _ k hother]
      have hcnt : (if (fun l => decide (l.target.1 = k)) l = true then 1 else 0) = 0 := by
        simp [hk]
      rw [hcnt]
      simp

theorem gInd0_look (g : GraphDSL) (k : String) (d : Nat)
    (h : look (gInd0 g) k = some d) : d = linkCount g k := by
  unfold gInd0 at h
  by_cases hmem : k ∈ keysOf g.nodes
  · rw [foldl_bump_look_some g.links _ k 0 (look_initZero_mem hmem)] at h
    have := Option.some.inj h
    unfold linkCount
    omega
  · rw [foldl_bump_look_none g.links _ k (look_initZero_not hmem)] at h
    by_cases hz : g.links.countP (fun l => l.target.1 = k) = 0
    · rw [if_pos hz] at h
      exact Option.noConfusion h
    · rw [if_neg hz] at h
      unfold linkCount
      exact (Option.some.inj h).symm

theorem gInd0_keys_nodup (g : GraphDSL) (hnd : (keysOf g.nodes).Nodup) :
    (keysOf (gInd0 g)).Nodup := by
  unfold gInd0
  apply foldl_bump_keys_nodup
  rw [keysOf_initZero]
  exact hnd

theorem gInd0_keys_super (g : GraphDSL) : ∀ k ∈ keysOf g.nodes, k ∈ keysOf (gInd0 g) := by
  intro k hk
  rw [← look_isSome_iff]
  unfold gInd0
  rw [foldl_bump_look_some g.links _ k 0 (look_initZero_mem hk)]
  rfl

theorem gInd0_keys_sub (g : GraphDSL)
    (hwf : ∀ l ∈ g.links, l.target.1 ∈ keysOf g.nodes) :
    ∀ k ∈ keysOf (gInd0 g), k ∈ keysOf g.nodes := by
  intro k hk
  unfold gInd0 at hk
  rcases foldl_bump_keys_sub g.links _ k hk with h1 | h2
  · rw [keysOf_initZero] at h1
    exact h1
  · rcases List.mem_map.mp h2 with ⟨l, hl, htgt⟩
    exact htgt ▸ hwf l hl

theorem gKahn_init_inv (g : GraphDSL) (hnd : (keysOf g.nodes).Nodup) :
    KahnInv g (gInd0 g) (gInd0 g) (gQ0 g) [] [] := by
  have hknd := gInd0_keys_nodup g hnd
  have hq0perm : (gQ0 g).Perm (((gInd0 g).filter (fun p => p.2 = 0)).map Prod.fst) :=
    List.perm_insertionSort _ _
  have hentry : ∀ x ∈ gQ0 g, (x, 0) ∈ gInd0 g := by
    intro x hx
    rcases List.mem_map.mp (hq0perm.subset hx) with ⟨e, he, hfst⟩
    rw [List.mem_filter] at he
    have h2 : e.2 = 0 := by
      have := he.2
      simpa using this
    have : e = (x, 0) := by
      obtain ⟨e1, e2⟩ := e
      simp only [Prod.mk.injEq]
      exact ⟨hfst, h2⟩
    exact this ▸ he.1
  refine ⟨rfl, ?_, ?_, ?_, ?_, ?_, ?_⟩
  · rw [List.nil_append]
    apply hq0perm.symm.nodup
    apply List.Nodup.sublist _ hknd
    exact List.Sublist.map Prod.fst (List.filter_sublist _)
  · intro x hx
    rw [List.nil_append] at hx
    exact List.mem_map.mpr ⟨(x, 0), hentry x hx, rfl⟩
  · intro k d hk
    rw [doneCount_nil, countOcc_nil]
    have := gInd0_look g k d hk
    omega
  · intro x hx
    rw [List.nil_append] at hx
    exact look_of_mem_nodup (hentry x hx) hknd
  · intro k _ h0
    refine Or.inr ?_
    apply hq0perm.symm.subset
    refine List.mem_map.mpr ⟨(k, 0), ?_, rfl⟩
    rw [List.mem_filter]
    exact ⟨look_mem h0, by simp⟩
  · intro v hv
    simp at hv

theorem foldl_bumpIfPresent_keys :
    ∀ (ls : List Link) (m : List (String × Nat)),
      keysOf (ls.foldl (fun m l => bumpIfPresent m l.target.1) m) = keysOf m := by
  intro ls
  induction ls with
  | nil => intro m; rfl
  | cons l rest ih =>
    intro m
    rw [List.foldl_cons, ih, keysOf_bumpIfPresent]

theorem sInd0_keys (g : GraphDSL) : keysOf (sInd0 g) = keysOf g.nodes := by
  unfold sInd0
  rw [foldl_bumpIfPresent_keys, keysOf_initZero]

theorem sInd0_look (g : GraphDSL) (k : String) (d : Nat)
    (h : look (sInd0 g) k = some d) : d = linkCount g k := by
  unfold sInd0 at h
  rw [foldl_bumpIfPresent_look] at h
  by_cases hmem : k ∈ keysOf g.nodes
  · rw [look_initZero_mem hmem] at h
    simp only [Option.map_some'] at h
    have h2 := Option.some.inj h
    unfold linkCount
    omega
  · rw [look_initZero_not hmem] at h
    exact Option.noConfusion h

theorem sKahn_init_inv (g : GraphDSL) (hnd : (keysOf g.nodes).Nodup) :
    KahnInv g (sInd0 g) (sInd0 g) (sQ0 g) [] [] := by
  have hknd : (keysOf (sInd0 g)).Nodup := by
    rw [sInd0_keys]
    exact hnd
  have hentry : ∀ x ∈ sQ0 g, (x, 0) ∈ sInd0 g := by
    intro x hx
    rcases List.mem_map.mp hx with ⟨e, he, hfst⟩
    rw [List.mem_filter] at he
    have h2 : e.2 = 0 := by
      have := he.2
      simpa using this
    have : e = (x, 0) := by
      obtain ⟨e1, e2⟩ := e
      simp only [Prod.mk.injEq]
      exact ⟨hfst, h2⟩
    exact this ▸ he.1
  refine ⟨rfl, ?_, ?_, ?_, ?_, ?_, ?_⟩
  · rw [List.nil_append]
    apply List.Nodup.sublist _ hknd
    exact List.Sublist.map Prod.fst (List.filter_sublist _)
  · intro x hx
    rw [List.nil_append] at hx
    exact List.mem_map.mpr ⟨(x, 0), hentry x hx, rfl⟩
  · intro k d hk
    rw [doneCount_nil, countOcc_nil]
    have := sInd0_look g k d hk
    omega
  · intro x hx
    rw [List.nil_append] at hx
    exact look_of_mem_nodup (hentry x hx) hknd
  · intro k _ h0
    refine Or.inr ?_
    refine List.mem_map.mpr ⟨(k, 0), ?_, rfl⟩
    rw [List.mem_filter]
    exact ⟨look_mem h0, by simp⟩
  · intro v hv
    simp at hv

theorem gKahnRun_inv (g : GraphDSL) (hnd : (keysOf g.nodes).Nodup) :
    KahnInv g (gInd0 g) (gKahnRun g).1 [] (gKahnRun g).2 [] := by
  unfold gKahnRun
  apply kahnLoop_inv g (gInd0 g) popBack enqSorted
    (fun q v q1 => popBack_some) (fun q => popBack_none)
    enqSorted_perm (gInd0_keys_nodup g hnd)
    ((gInd0 g).length + 1) (gInd0 g) (gQ0 g) [] (gKahn_init_inv g hnd)
  have : (keysOf (gInd0 g)).length = (gInd0 g).length := List.length_map _ _
  omega

theorem sKahnRun_inv (g : GraphDSL) (hnd : (keysOf g.nodes).Nodup) :
    KahnInv g (sInd0 g) (sKahnRun g).1 [] (sKahnRun g).2 [] := by
  unfold sKahnRun
  apply kahnLoop_inv g (sInd0 g) popFront enqBack
    (fun q v q1 => popFront_some) (fun q => popFront_none)
    enqBack_perm (by rw [sInd0_keys]; exact hnd)
    ((sInd0 g).length + 1) (sInd0 g) (sQ0 g) [] (sKahn_init_inv g hnd)
  have : (keysOf (sInd0 g)).length = (sInd0 g).length := List.length_map _ _
  omega

/-! ## DFS soundness: a reported cycle is a real cycle -/

theorem insertS_not_mem {x : String} {l : List String} (h : x ∉ l) :
    insertS x l = x :: l := by
  unfold insertS
  rw [if_neg h]

theorem reflTransGen_step_transGen {α : Type} {r : α → α → Prop} {a b c : α}
    (h1 : Relation.ReflTransGen r a b) (h2 : r b c) :
    Relation.TransGen r a c :=
  Relation.TransGen.tail' h1 h2

theorem dfsChildren_sound (g : GraphDSL) (next : String → DfsState → Bool × DfsState)
    (node_id : String)
    (Hnext : ∀ c st1, st1.recStack ⊆ st1.visited → c ∉ st1.visited →
      (∀ r ∈ st1.recStack, Relation.ReflTransGen (LinkStep g) r c) →
      ((next c st1).1 = true → ∃ m, Relation.TransGen (LinkStep g) m m) ∧
      ((next c st1).1 = false → (next c st1).2.recStack = st1.recStack ∧
        st1.visited ⊆ (next c st1).2.visited ∧
        (next c st1).2.recStack ⊆ (next c st1).2.visited)) :
    ∀ (cs : List String) (st : DfsState),
      (∀ c ∈ cs, LinkStep g node_id c) →
      st.recStack ⊆ st.visited →
      (∀ r ∈ st.recStack, Relation.ReflTransGen (LinkStep g) r node_id) →
      ((dfsChildren g next node_id cs st).1 = true →
        ∃ m, Relation.TransGen (LinkStep g) m m) ∧
      ((dfsChildren g next node_id cs st).1 = false →
        (dfsChildren g next node_id cs st).2.recStack = st.recStack ∧
        st.visited ⊆ (dfsChildren g next node_id cs st).2.visited ∧
        (dfsChildren g next node_id cs st).2.recStack ⊆
          (dfsChildren g next node_id cs st).2.visited) := by
  intro cs
  induction cs with
  | nil =>
    intro st _ hsub _
    constructor
    · intro h
      exact Bool.noConfusion h
    · intro _
      exact ⟨rfl, fun x hx => hx, hsub⟩
  | cons c rest ih =>
    intro st hcs hsub hgrey
    by_cases hv : c ∈ st.visited
    · by_cases hr : c ∈ st.recStack
      · simp only [dfsChildren, if_pos hv, if_pos hr]
        constructor
        · intro _
          refine ⟨c, ?_⟩
          exact reflTransGen_step_transGen (hgrey c hr) (hcs c (List.mem_cons_self c rest))
        · intro h
          exact Bool.noConfusion h
      · simp only [dfsChildren, if_pos hv, if_neg hr]
        exact ih st (fun x hx => hcs x (List.mem_cons_of_mem c hx)) hsub hgrey
    · rcases hnx : next c st with ⟨b, st2⟩
      have hgrey_c : ∀ r ∈ st.recStack, Relation.ReflTransGen (LinkStep g) r c := by
        intro r hrm
        exact (hgrey r hrm).tail (hcs c (List.mem_cons_self c rest))
      have hn := Hnext c st hsub hv hgrey_c
      rw [hnx] at hn
      cases b with
      | true =>
        simp only [dfsChildren, if_neg hv, hnx]
        constructor
        · intro _
          exact hn.1 rfl
        · intro h
          exact Bool.noConfusion h
      | false =>
        simp only [dfsChildren, if_neg hv, hnx]
        obtain ⟨hrs, hvis, hrs2⟩ := hn.2 rfl
        have hrec := ih st2 (fun x hx => hcs x (List.mem_cons_of_mem c hx))
          hrs2 (by rw [hrs]; exact hgrey)
        refine ⟨hrec.1, ?_⟩
        intro hf
        obtain ⟨ha, hb, hc2⟩ := hrec.2 hf
        exact ⟨by rw [ha, hrs], fun x hx => hb (hvis hx), hc2⟩

theorem dfsDetect_sound (g : GraphDSL) :
    ∀ (fuel : Nat) (n : String) (st : DfsState),
      st.recStack ⊆ st.visited →
      n ∉ st.visited →
      (∀ r ∈ st.recStack, Relation.ReflTransGen (LinkStep g) r n) →
      ((dfsDetect g fuel n st).1 = true →
        ∃ m, Relation.TransGen (LinkStep g) m m) ∧
      ((dfsDetect g fuel n st).1 = false →
        (dfsDetect g fuel n st).2.recStack = st.recStack ∧
        st.visited ⊆ (dfsDetect g fuel n st).2.visited ∧
        (dfsDetect g fuel n st).2.recStack ⊆ (dfsDetect g fuel n st).2.visited) := by
  intro fuel
  induction fuel with
  | zero =>
    intro n st hsub _ _
    constructor
    · intro h
      exact Bool.noConfusion h
    · intro _
      exact ⟨rfl, fun x hx => hx, hsub⟩
  | succ fuel ih =>
    intro n st hsub hnvis hgrey
    have hnrec : n ∉ st.recStack := fun hc => hnvis (hsub hc)
    have hvis1 : insertS n st.visited = n :: st.visited := insertS_not_mem hnvis
    have hrec1 : insertS n st.recStack = n :: st.recStack := insertS_not_mem hnrec
    have hunfold : dfsDetect g (fuel + 1) n st =
        match dfsChildren g (fun c s => dfsDetect g fuel c s) n (getChildren g n)
          { st with visited := insertS n st.visited
                    recStack := insertS n st.recStack } with
        | (true, st2) => (true, st2)
        | (false, st2) => (false, { st2 with recStack := st2.recStack.erase n }) := rfl
    set st1 : DfsState :=
      { st with visited := insertS n st.visited, recStack := insertS n st.recStack }
      with hst1
    have hsub1 : st1.recStack ⊆ st1.visited := by
      rw [hst1]
      simp only [hvis1, hrec1]
      intro x hx
      rcases List.mem_cons.mp hx with h1 | h2
      · exact h1 ▸ List.mem_cons_self n st.visited
      · exact List.mem_cons_of_mem n (hsub h2)
    have hgrey1 : ∀ r ∈ st1.recStack, Relation.ReflTransGen (LinkStep g) r n := by
      rw [hst1]
      simp only [hrec1]
      intro r hrm
      rcases List.mem_cons.mp hrm with h1 | h2
      · exact h1 ▸ Relation.ReflTransGen.refl
      · exact hgrey r h2
    have hcs : ∀ c ∈ getChildren g n, LinkStep g n c :=
      fun c hc => (linkStep_iff_child g n c).mpr hc
    have hch := dfsChildren_sound g (fun c s => dfsDetect g fuel c s) n
      (fun c st2 => ih c st2) (getChildren g n) st1 hcs hsub1 hgrey1
    rcases hres : dfsChildren g (fun c s => dfsDetect g fuel c s) n
        (getChildren g n) st1 with ⟨b, st2⟩
    rw [hres] at hch
    cases b with
    | true =>
      rw [hunfold, hres]
      constructor
      · intro _
        exact hch.1 rfl
      · intro h
        exact Bool.noConfusion h
    | false =>
      rw [hunfold, hres]
      obtain ⟨hrs, hvis, _⟩ := hch.2 rfl
      constructor
      · intro h
        exact Bool.noConfusion h
      · intro _
        refine ⟨?_, ?_, ?_⟩
        · simp only
          rw [hrs, hst1]
          simp only [hrec1]
          exact List.erase_cons_head n st.recStack
        · simp only
          intro x hx
          apply hvis
          rw [hst1]
          simp only [hvis1]
          exact List.mem_cons_of_mem n hx
        · simp only
          rw [hrs, hst1]
          simp only [hrec1, List.erase_cons_head]
          intro x hx
          apply hvis
          rw [hst1]
          simp only [hvis1]
          exact List.mem_cons_of_mem n (hsub hx)

theorem detectCyclesAux_sound (g : GraphDSL) :
    ∀ (roots : List String) (st : DfsState) (ns : List String),
      st.recStack = [] →
      detectCyclesAux g roots st = some ns →
      ∃ m, Relation.TransGen (LinkStep g) m m := by
  intro roots
  induction roots with
  | nil =>
    intro st ns _ h
    simp [detectCyclesAux] at h
  | cons r rest ih =>
    intro st ns hrec h
    by_cases hv : r ∈ st.visited
    · simp only [detectCyclesAux, if_pos hv] at h
      exact ih st ns hrec h
    · simp only [detectCyclesAux, if_neg hv] at h
      have hsub : st.recStack ⊆ st.visited := by
        rw [hrec]
        intro x hx
        simp at hx
      have hgrey : ∀ x ∈ st.recStack, Relation.ReflTransGen (LinkStep g) x r := by
        rw [hrec]
        intro x hx
        simp at hx
      have hds := dfsDetect_sound g (dfsFuel g) r st hsub hv hgrey
      rcases hres : dfsDetect g (dfsFuel g) r st with ⟨b, st2⟩
      rw [hres] at hds h
      cases b with
      | true => exact hds.1 rfl
      | false =>
        obtain ⟨hrs, _, _⟩ := hds.2 rfl
        exact ih st2 ns (by rw [hrs, hrec]) h

theorem detectCycles_sound (g : GraphDSL) {ns : List String}
    (h : detectCycles g = .error ns) :
    ∃ m, Relation.TransGen (LinkStep g) m m := by
  unfold detectCycles at h
  rcases haux : detectCyclesAux g (keysOf g.nodes) ⟨[], [], []⟩ with _ | ns2
  · rw [haux] at h
    exact Except.noConfusion h
  · exact detectCyclesAux_sound g (keysOf g.nodes) ⟨[], [], []⟩ ns2 rfl haux

theorem detectCycles_ok_of_acyclic (g : GraphDSL) (hacyc : Acyclic g) :
    detectCycles g = .ok () := by
  rcases h : detectCycles g with ns | u
  · obtain ⟨m, hm⟩ := detectCycles_sound g h
    exact absurd hm (hacyc m)
  · rfl

/-! ## Claim C2 — topological validity -/

theorem acyclic_of_rank (g : GraphDSL) (rank : String → Nat)
    (h : ∀ l ∈ g.links, rank l.source.1 < rank l.target.1) : Acyclic g := by
  intro s hs
  have hmono : ∀ u v, Relation.TransGen (LinkStep g) u v → rank u < rank v := by
    intro u v h2
    induction h2 with
    | single hstep =>
      obtain ⟨l, hl, hsrc, htgt⟩ := hstep
      rw [← hsrc, ← htgt]
      exact h l hl
    | tail _ hstep ih =>
      obtain ⟨l, hl, hsrc, htgt⟩ := hstep
      have h3 := h l hl
      rw [hsrc, htgt] at h3
      omega
  exact absurd (hmono s s hs) (lt_irrefl _)

theorem checkLinksExist_none (g : GraphDSL) :
    ∀ ls : List Link,
      (∀ l ∈ ls, (look g.nodes l.source.1).isSome ∧ (look g.nodes l.target.1).isSome) →
      checkLinksExist g ls = none := by
  intro ls
  induction ls with
  | nil => intro _; rfl
  | cons l rest ih =>
    intro h
    obtain ⟨h1, h2⟩ := h l (List.mem_cons_self l rest)
    simp only [checkLinksExist, h1, h2, if_pos]
    exact ih (fun x hx => h x (List.mem_cons_of_mem l hx))

theorem checkDuplicateLinks_none :
    ∀ (ls : List Link) (seen : List (String × String × String × String)),
      (ls.map linkQuad).Nodup →
      (∀ l ∈ ls, linkQuad l ∉ seen) →
      checkDuplicateLinks ls seen = none := by
  intro ls
  induction ls with
  | nil => intro seen _ _; rfl
  | cons l rest ih =>
    intro seen hnd hseen
    have hhead : linkQuad l ∉ seen := hseen l (List.mem_cons_self l rest)
    simp only [checkDuplicateLinks, if_neg hhead]
    simp only [List.map_cons, List.nodup_cons] at hnd
    apply ih (linkQuad l :: seen) hnd.2
    intro x hx
    rw [List.mem_cons]
    rintro (hq | hs)
    · exact hnd.1 (hq ▸ List.mem_map.mpr ⟨x, hx, rfl⟩)
    · exact hseen x (List.mem_cons_of_mem l hx) hs

theorem validate_ok (g : GraphDSL) (hacyc : Acyclic g)
    (hwf : ∀ l ∈ g.links, l.source.1 ∈ keysOf g.nodes ∧ l.target.1 ∈ keysOf g.nodes)
    (hdup : (g.links.map linkQuad).Nodup) :
    validate g = .ok () := by
  have h1 := detectCycles_ok_of_acyclic g hacyc
  have h2 : checkLinksExist g g.links = none := by
    apply checkLinksExist_none
    intro l hl
    rw [look_isSome_iff, look_isSome_iff]
    exact hwf l hl
  have h3 : checkDuplicateLinks g.links [] = none :=
    checkDuplicateLinks_none g.links [] hdup (by simp)
  simp only [validate, h1, h2, h3]

/-- C2 counterexample: `gDangling` (one node `a`, one link `a → b` to a
nonexistent node) is acyclic, yet `topological_sort` does not succeed —
validation rejects the dangling endpoint first. -/
theorem spec_c2_counterexample :
    Acyclic gDangling ∧
    topologicalSort gDangling = .error (.NodeNotFound "b") := by
  constructor
  · exact acyclic_of_rank gDangling (fun s => if s = "b" then 1 else 0) (by decide)
  · decide

/-- C2 amended: for every acyclic graph whose node-key map is duplicate
free, whose link endpoints all reference existing nodes, and whose links
carry no duplicate port quadruple (the conditions `validate` checks
besides acyclicity), `topological_sort` succeeds and returns a
permutation of the node keys in which every link's source appears
strictly before its target. -/
theorem spec_c2_topological_validity (g : GraphDSL)
    (hnd : (keysOf g.nodes).Nodup)
    (hacyc : Acyclic g)
    (hwf : ∀ l ∈ g.links, l.source.1 ∈ keysOf g.nodes ∧ l.target.1 ∈ keysOf g.nodes)
    (hdup : (g.links.map linkQuad).Nodup) :
    ∃ res, topologicalSort g = .ok res ∧ res.Perm (keysOf g.nodes) ∧
      ∀ l ∈ g.links, idxOf res l.source.1 < idxOf res l.target.1 := by
  have hval := validate_ok g hacyc hwf hdup
  have hinv := gKahnRun_inv g hnd
  have hknd := gInd0_keys_nodup g hnd
  have hsrc : ∀ l ∈ g.links, l.source.1 ∈ keysOf (gInd0 g) :=
    fun l hl => gInd0_keys_super g _ ((hwf l hl).1)
  have hperm0 : (gKahnRun g).2.Perm (keysOf (gInd0 g)) :=
    kahn_final_perm g hinv hknd hacyc hsrc
  have hkeysperm : (keysOf (gInd0 g)).Perm (keysOf g.nodes) := by
    rw [List.perm_ext_iff_of_nodup hknd hnd]
    intro a
    exact ⟨fun h => gInd0_keys_sub g (fun l hl => (hwf l hl).2) a h,
      fun h => gInd0_keys_super g a h⟩
  have hperm : (gKahnRun g).2.Perm (keysOf g.nodes) := hperm0.trans hkeysperm
  have hlen : (gKahnRun g).2.length = g.nodes.length := by
    rw [hperm.length_eq]
    exact List.length_map _ _
  refine ⟨(gKahnRun g).2, ?_, hperm, ?_⟩
  · simp only [topologicalSort, hval]
    rw [if_pos hlen]
  · intro l hl
    have htgt_res : l.target.1 ∈ (gKahnRun g).2 :=
      hperm.symm.subset ((hwf l hl).2)
    obtain ⟨_, hidx⟩ := hinv.res_order l.target.1 htgt_res l hl rfl
    exact hidx

/-- Witness for C2 on the two-node chain `n → m`. -/
theorem spec_c2_witness :
    ∃ res, topologicalSort gChainNM = .ok res ∧
      res.Perm (keysOf gChainNM.nodes) ∧
      ∀ l ∈ gChainNM.links, idxOf res l.source.1 < idxOf res l.target.1 :=
  spec_c2_topological_validity gChainNM (by decide)
    (acyclic_of_rank gChainNM (fun s => if s = "m" then 1 else 0) (by decide))
    (by decide) (by decide)

/-! ## DFS completeness: an `ok` run means no cycle is reachable from any root -/

theorem countP_mono_mem {α : Type} (p q : α → Bool) :
    ∀ l : List α, (∀ a ∈ l, p a = true → q a = true) →
      l.countP p ≤ l.countP q := by
  intro l
  induction l with
  | nil => intro _; exact Nat.le_refl _
  | cons x xs ih =>
    intro h
    have hxs := ih (fun a ha => h a (List.mem_cons_of_mem x ha))
    rw [List.countP_cons, List.countP_cons]
    by_cases hp : p x = true
    · rw [if_pos hp, if_pos (h x (List.mem_cons_self x xs) hp)]
      omega
    · rw [if_neg hp]
      by_cases hq : q x = true
      · rw [if_pos hq]; omega
      · rw [if_neg hq]; omega

theorem countP_lt_mem {α : Type} (p q : α → Bool) :
    ∀ l : List α, (∀ a ∈ l, p a = true → q a = true) →
      ∀ a ∈ l, q a = true → p a = false → l.countP p < l.countP q := by
  intro l
  induction l with
  | nil => intro _ a ha; cases ha
  | cons x xs ih =>
    intro hpq a ha hqa hpa
    rw [List.countP_cons, List.countP_cons]
    have hxs := countP_mono_mem p q xs (fun b hb => hpq b (List.mem_cons_of_mem x hb))
    rcases List.mem_cons.mp ha with hax | hax
    · subst hax
      rw [if_pos hqa, if_neg (by simp [hpa])]
      omega
    · have hlt := ih (fun b hb => hpq b (List.mem_cons_of_mem x hb)) a hax hqa hpa
      by_cases hp : p x = true
      · rw [if_pos hp, if_pos (hpq x (List.mem_cons_self x xs) hp)]
        omega
      · rw [if_neg hp]
        by_cases hq : q x = true
        · rw [if_pos hq]; omega
        · rw [if_neg hq]; omega

theorem unvisCount_mono (g : GraphDSL) {st st' : DfsState}
    (h : ∀ x ∈ st.visited, x ∈ st'.visited) :
    unvisCount g st' ≤ unvisCount g st := by
  unfold unvisCount
  apply countP_mono_mem
  intro a _ ha
  simp only [Bool.not_eq_true', decide_eq_false_iff_not] at ha ⊢
  exact fun hmem => ha (h a hmem)

theorem unvisCount_lt (g : GraphDSL) {st st' : DfsState} {n : String}
    (hn : n ∈ dfsCandidates g) (hnv : n ∉ st.visited)
    (hsub : ∀ x ∈ st.visited, x ∈ st'.visited) (hn' : n ∈ st'.visited) :
    unvisCount g st' < unvisCount g st := by
  unfold unvisCount
  refine countP_lt_mem _ _ _ ?_ n hn ?_ ?_
  · intro a _ ha
    simp only [Bool.not_eq_true', decide_eq_false_iff_not] at ha ⊢
    exact fun hmem => ha (hsub a hmem)
  · simp [hnv]
  · simp [hn']

theorem unvisCount_le_fuel (g : GraphDSL) (st : DfsState) :
    unvisCount g st < dfsFuel g := by
  have h := List.countP_le_length (fun c => !decide (c ∈ st.visited))
    (l := dfsCandidates g)
  unfold unvisCount dfsFuel
  omega

theorem cycleFrom_step (g : GraphDSL) {n : String} (h : CycleFrom g n) :
    ∃ c, LinkStep g n c ∧ CycleFrom g c := by
  obtain ⟨m, hnm, hmm⟩ := h
  rcases Relation.ReflTransGen.cases_head hnm with heq | ⟨c, hnc, hcm⟩
  · subst heq
    obtain ⟨c, hnc, hcn⟩ := Relation.TransGen.head'_iff.mp hmm
    exact ⟨c, hnc, c, Relation.ReflTransGen.refl, Relation.TransGen.tail' hcn hnc⟩
  · exact ⟨c, hnc, m, hcm, hmm⟩

theorem dfsChildren_complete (g : GraphDSL)
    (next : String → DfsState → Bool × DfsState) (node_id : String) (B : Nat)
    (Hnext : ∀ c stc, c ∈ dfsCandidates g → c ∉ stc.visited →
      stc.recStack ⊆ stc.visited →
      (∀ b ∈ stc.visited, b ∉ stc.recStack → ¬ CycleFrom g b) →
      unvisCount g stc ≤ B →
      (next c stc).1 = false →
      (next c stc).2.recStack = stc.recStack ∧
      stc.visited ⊆ (next c stc).2.visited ∧
      c ∈ (next c stc).2.visited ∧
      (∀ b ∈ (next c stc).2.visited, b ∉ (next c stc).2.recStack → ¬ CycleFrom g b)) :
    ∀ (cs : List String) (st : DfsState),
      (∀ c ∈ cs, c ∈ dfsCandidates g) →
      st.recStack ⊆ st.visited →
      (∀ b ∈ st.visited, b ∉ st.recStack → ¬ CycleFrom g b) →
      unvisCount g st ≤ B →
      (dfsChildren g next node_id cs st).1 = false →
      (dfsChildren g next node_id cs st).2.recStack = st.recStack ∧
      st.visited ⊆ (dfsChildren g next node_id cs st).2.visited ∧
      (∀ b ∈ (dfsChildren g next node_id cs st).2.visited,
        b ∉ (dfsChildren g next node_id cs st).2.recStack → ¬ CycleFrom g b) ∧
      (∀ c ∈ cs, c ∈ (dfsChildren g next node_id cs st).2.visited ∧
        c ∉ (dfsChildren g next node_id cs st).2.recStack) := by
  intro cs
  induction cs with
  | nil =>
    intro st _ hsub hgood _ _
    exact ⟨rfl, fun x hx => hx, hgood, fun c hc => absurd hc (List.not_mem_nil c)⟩
  | cons c rest ih =>
    intro st hcand hsub hgood hfuel hfalse
    by_cases hv : c ∈ st.visited
    · by_cases hr : c ∈ st.recStack
      · simp only [dfsChildren, if_pos hv, if_pos hr] at hfalse
        exact Bool.noConfusion hfalse
      · simp only [dfsChildren, if_pos hv, if_neg hr] at hfalse ⊢
        obtain ⟨h1, h2, h3, h4⟩ := ih st
          (fun x hx => hcand x (List.mem_cons_of_mem c hx)) hsub hgood hfuel hfalse
        refine ⟨h1, h2, h3, ?_⟩
        intro x hx
        rcases List.mem_cons.mp hx with hxc | hxr
        · subst hxc
          refine ⟨h2 hv, ?_⟩
          rw [h1]
          exact hr
        · exact h4 x hxr
    · rcases hnx : next c st with ⟨b, st2⟩
      cases b with
      | true =>
        simp only [dfsChildren, if_neg hv, hnx] at hfalse
        exact Bool.noConfusion hfalse
      | false =>
        have hn := Hnext c st (hcand c (List.mem_cons_self c rest)) hv hsub hgood hfuel
        rw [hnx] at hn
        obtain ⟨hrs, hvis, hcv, hgood2⟩ := hn rfl
        simp only [dfsChildren, if_neg hv, hnx] at hfalse ⊢
        have hsub2 : st2.recStack ⊆ st2.visited := by
          rw [hrs]
          exact fun x hx => hvis (hsub hx)
        have hfuel2 : unvisCount g st2 ≤ B :=
          le_trans (unvisCount_mono g (fun x hx => hvis hx)) hfuel
        obtain ⟨h1, h2, h3, h4⟩ := ih st2
          (fun x hx => hcand x (List.mem_cons_of_mem c hx)) hsub2 hgood2 hfuel2 hfalse
        refine ⟨?_, ?_, h3, ?_⟩
        · rw [h1, hrs]
        · exact fun x hx => h2 (hvis hx)
        · intro x hx
          rcases List.mem_cons.mp hx with hxc | hxr
          · subst hxc
            refine ⟨h2 hcv, ?_⟩
            rw [h1, hrs]
            exact fun hc => hv (hsub hc)
          · exact h4 x hxr

theorem dfsDetect_complete (g : GraphDSL) :
    ∀ (fuel : Nat) (n : String) (st : DfsState),
      unvisCount g st < fuel →
      n ∈ dfsCandidates g →
      n ∉ st.visited →
      st.recStack ⊆ st.visited →
      (∀ b ∈ st.visited, b ∉ st.recStack → ¬ CycleFrom g b) →
      (dfsDetect g fuel n st).1 = false →
      (dfsDetect g fuel n st).2.recStack = st.recStack ∧
      st.visited ⊆ (dfsDetect g fuel n st).2.visited ∧
      n ∈ (dfsDetect g fuel n st).2.visited ∧
      (∀ b ∈ (dfsDetect g fuel n st).2.visited,
        b ∉ (dfsDetect g fuel n st).2.recStack → ¬ CycleFrom g b) := by
  intro fuel
  induction fuel with
  | zero =>
    intro n st hfuel _ _ _ _ _
    exact absurd hfuel (Nat.not_lt_zero _)
  | succ fuel ih =>
    intro n st hfuel hncand hnvis hsub hgood hfalse
    have hnrec : n ∉ st.recStack := fun hc => hnvis (hsub hc)
    have hvis1 : insertS n st.visited = n :: st.visited := insertS_not_mem hnvis
    have hrec1 : insertS n st.recStack = n :: st.recStack := insertS_not_mem hnrec
    have hunfold : dfsDetect g (fuel + 1) n st =
        match dfsChildren g (fun c s => dfsDetect g fuel c s) n (getChildren g n)
          { st with visited := insertS n st.visited
                    recStack := insertS n st.recStack } with
        | (true, st2) => (true, st2)
        | (false, st2) => (false, { st2 with recStack := st2.recStack.erase n }) := rfl
    set st1 : DfsState :=
      { st with visited := insertS n st.visited, recStack := insertS n st.recStack }
      with hst1
    have hsub1 : st1.recStack ⊆ st1.visited := by
      rw [hst1]
      simp only [hvis1, hrec1]
      intro x hx
      rcases List.mem_cons.mp hx with h1 | h2
      · exact h1 ▸ List.mem_cons_self n st.visited
      · exact List.mem_cons_of_mem n (hsub h2)
    have hgood1 : ∀ b ∈ st1.visited, b ∉ st1.recStack → ¬ CycleFrom g b := by
      rw [hst1]
      simp only [hvis1, hrec1]
      intro b hb hbr
      rcases List.mem_cons.mp hb with h1 | h2
      · subst h1
        exact absurd (List.mem_cons_self b st.recStack) hbr
      · exact hgood b h2 (fun hc => hbr (List.mem_cons_of_mem n hc))
    have hlt1 : unvisCount g st1 < unvisCount g st :=
      unvisCount_lt g hncand hnvis
        (by rw [hst1]
            simp only [hvis1]
            exact fun x hx => List.mem_cons_of_mem n hx)
        (by rw [hst1]
            simp only [hvis1]
            exact List.mem_cons_self n st.visited)
    have hcand : ∀ c ∈ getChildren g n, c ∈ dfsCandidates g := by
      intro c hc
      obtain ⟨l, hl, _, ht⟩ := (linkStep_iff_child g n c).mpr hc
      unfold dfsCandidates
      exact List.mem_append_right _ (List.mem_map.mpr ⟨l, hl, ht⟩)
    have Hnext : ∀ c stc, c ∈ dfsCandidates g → c ∉ stc.visited →
        stc.recStack ⊆ stc.visited →
        (∀ b ∈ stc.visited, b ∉ stc.recStack → ¬ CycleFrom g b) →
        unvisCount g stc ≤ unvisCount g st1 →
        (dfsDetect g fuel c stc).1 = false →
        (dfsDetect g fuel c stc).2.recStack = stc.recStack ∧
        stc.visited ⊆ (dfsDetect g fuel c stc).2.visited ∧
        c ∈ (dfsDetect g fuel c stc).2.visited ∧
        (∀ b ∈ (dfsDetect g fuel c stc).2.visited,
          b ∉ (dfsDetect g fuel c stc).2.recStack → ¬ CycleFrom g b) := by
      intro c stc hccand hcv hcsub hcgood hcfuel hcfalse
      exact ih c stc (by omega) hccand hcv hcsub hcgood hcfalse
    have hch := dfsChildren_complete g (fun c s => dfsDetect g fuel c s) n
      (unvisCount g st1) Hnext (getChildren g n) st1 hcand hsub1 hgood1
      (Nat.le_refl _)
    rcases hres : dfsChildren g (fun c s => dfsDetect g fuel c s) n
        (getChildren g n) st1 with ⟨b, st2⟩
    rw [hres] at hch
    cases b with
    | true =>
      rw [hunfold, hres] at hfalse
      exact Bool.noConfusion hfalse
    | false =>
      obtain ⟨h1, h2, h3, h4⟩ := hch rfl
      rw [hunfold, hres]
      have herase : st2.recStack.erase n = st.recStack := by
        rw [h1, hst1]
        simp only [hrec1]
        exact List.erase_cons_head n st.recStack
      refine ⟨?_, ?_, ?_, ?_⟩
      · simp only
        exact herase
      · simp only
        intro x hx
        apply h2
        rw [hst1]
        simp only [hvis1]
        exact List.mem_cons_of_mem n hx
      · simp only
        apply h2
        rw [hst1]
        simp only [hvis1]
        exact List.mem_cons_self n st.visited
      · simp only
        intro x hx hxr
        rw [herase] at hxr
        by_cases hxs2 : x ∈ st2.recStack
        · have hxn : x = n := by
            rw [h1, hst1] at hxs2
            simp only [hrec1] at hxs2
            rcases List.mem_cons.mp hxs2 with h | h
            · exact h
            · exact absurd h hxr
          subst hxn
          intro hcyc
          obtain ⟨c, hstep, hcf⟩ := cycleFrom_step g hcyc
          have hcchild : c ∈ getChildren g x := (linkStep_iff_child g x c).mp hstep
          obtain ⟨hcv2, hcr2⟩ := h4 c hcchild
          exact h3 c hcv2 hcr2 hcf
        · exact h3 x hx hxs2

theorem detectCyclesAux_complete (g : GraphDSL) :
    ∀ (roots : List String) (st : DfsState),
      (∀ r ∈ roots, r ∈ dfsCandidates g) →
      st.recStack = [] →
      (∀ b ∈ st.visited, ¬ CycleFrom g b) →
      detectCyclesAux g roots st = none →
      ∀ r ∈ roots, ¬ CycleFrom g r := by
  intro roots
  induction roots with
  | nil =>
    intro st _ _ _ _ r hr
    cases hr
  | cons r0 rest ih =>
    intro st hroots hrec hgood hnone r hr
    by_cases hv : r0 ∈ st.visited
    · simp only [detectCyclesAux, if_pos hv] at hnone
      rcases List.mem_cons.mp hr with h | h
      · subst h
        exact hgood _ hv
      · exact ih st (fun x hx => hroots x (List.mem_cons_of_mem r0 hx)) hrec hgood hnone r h
    · simp only [detectCyclesAux, if_neg hv] at hnone
      have hsub : st.recStack ⊆ st.visited := by
        rw [hrec]
        intro x hx
        cases hx
      have hgood0 : ∀ b ∈ st.visited, b ∉ st.recStack → ¬ CycleFrom g b :=
        fun b hb _ => hgood b hb
      have hfuel : unvisCount g st < dfsFuel g := unvisCount_le_fuel g st
      have hdc := dfsDetect_complete g (dfsFuel g) r0 st hfuel
        (hroots r0 (List.mem_cons_self r0 rest)) hv hsub hgood0
      rcases hres : dfsDetect g (dfsFuel g) r0 st with ⟨b, st2⟩
      rw [hres] at hnone hdc
      cases b with
      | true => exact Option.noConfusion hnone
      | false =>
        obtain ⟨h1, h2, h3, h4⟩ := hdc rfl
        have hrec2 : st2.recStack = [] := by
          rw [h1, hrec]
        have hgood2 : ∀ b ∈ st2.visited, ¬ CycleFrom g b := by
          intro b hb
          apply h4 b hb
          rw [hrec2]
          exact List.not_mem_nil b
        rcases List.mem_cons.mp hr with h | h
        · subst h
          exact hgood2 _ h3
        · exact ih st2 (fun x hx => hroots x (List.mem_cons_of_mem r0 hx)) hrec2 hgood2 hnone r h

theorem detectCycles_complete (g : GraphDSL) (h : detectCycles g = .ok ()) :
    ∀ n ∈ keysOf g.nodes, ¬ CycleFrom g n := by
  unfold detectCycles at h
  rcases haux : detectCyclesAux g (keysOf g.nodes) ⟨[], [], []⟩ with _ | ns
  · refine detectCyclesAux_complete g (keysOf g.nodes) ⟨[], [], []⟩ ?_ rfl ?_ haux
    · intro r hr
      unfold dfsCandidates
      exact List.mem_append_left _ hr
    · intro b hb
      exact absurd hb (List.not_mem_nil b)
  · rw [haux] at h
    exact Except.noConfusion h

/-! ## Claim C5 — cycle detection -/

/-- C5 counterexample: `gTwoCycles` holds two disjoint cycles `a ↔ b` and
`c ↔ d`.  `validate` reports `CycleDetected ["a", "b", "a"]` — the DFS
stops at the first cycle found — so node `c`, which participates in the
cycle `c → d → c`, is missing from the returned list. -/
theorem spec_c5_counterexample :
    validate gTwoCycles = .error (.CycleDetected ["a", "b", "a"]) ∧
    Relation.TransGen (LinkStep gTwoCycles) "c" "c" ∧
    "c" ∉ ["a", "b", "a"] := by
  refine ⟨by decide, ?_, by decide⟩
  have hcd : LinkStep gTwoCycles "c" "d" := by
    unfold LinkStep
    decide
  have hdc : LinkStep gTwoCycles "d" "c" := by
    unfold LinkStep
    decide
  exact Relation.TransGen.head hcd (Relation.TransGen.single hdc)

/-- C5 amended: for every graph with duplicate-free node keys containing
a cycle through some node key, `validate` rejects with `CycleDetected`
(whose node list records only the first cycle the DFS hits, not the union
of all cycles), and `kahn_sort` rejects with a `CycleDetected` whose node
list — the keys of positive residual in-degree — does contain every node
key lying on a cycle. -/
theorem spec_c5_cycle_detection (g : GraphDSL)
    (hnd : (keysOf g.nodes).Nodup)
    (n0 : String) (hmem : n0 ∈ keysOf g.nodes)
    (hcyc : Relation.TransGen (LinkStep g) n0 n0) :
    (∃ ns, validate g = .error (.CycleDetected ns)) ∧
    (∃ ns, kahnSort g = .error (.CycleDetected ns) ∧
      ∀ m ∈ keysOf g.nodes, Relation.TransGen (LinkStep g) m m → m ∈ ns) := by
  constructor
  · rcases hdet : detectCycles g with ns | u
    · exact ⟨ns, by simp only [validate, hdet]⟩
    · cases u
      exact absurd ⟨n0, Relation.ReflTransGen.refl, hcyc⟩
        (detectCycles_complete g hdet n0 hmem)
  · have hinv := sKahnRun_inv g hnd
    have hnocyc : ∀ v ∈ (sKahnRun g).2, ¬ Relation.TransGen (LinkStep g) v v :=
      res_order_no_cycle g hinv.res_order
    have hres_nd : (sKahnRun g).2.Nodup := by
      have h := hinv.nodup
      simpa using h
    have hres_sub : ∀ x ∈ (sKahnRun g).2, x ∈ keysOf g.nodes := by
      intro x hx
      have h := hinv.mem_keys x (by simpa using hx)
      rwa [sInd0_keys] at h
    have hn0_not : n0 ∉ (sKahnRun g).2 := fun hc => hnocyc n0 hc hcyc
    have hsubperm : List.Subperm (sKahnRun g).2 (keysOf g.nodes) :=
      hres_nd.subperm hres_sub
    have hlen_lt : (sKahnRun g).2.length < (keysOf g.nodes).length := by
      rcases Nat.lt_or_ge (sKahnRun g).2.length (keysOf g.nodes).length with h | h
      · exact h
      · exfalso
        have hperm := hsubperm.perm_of_length_le h
        exact hn0_not (hperm.symm.subset hmem)
    have hlen_ne : ¬ ((sKahnRun g).2.length = g.nodes.length) := by
      have hkl : (keysOf g.nodes).length = g.nodes.length := List.length_map _ _
      omega
    refine ⟨((sKahnRun g).1.filter (fun p => 0 < p.2)).map Prod.fst, ?_, ?_⟩
    · simp only [kahnSort]
      rw [if_neg hlen_ne]
    · intro m hm hmcyc
      have hm_ind : m ∈ keysOf (sKahnRun g).1 := by
        rw [hinv.keys_eq, sInd0_keys]
        exact hm
      have hsome := (look_isSome_iff (sKahnRun g).1 m).mpr hm_ind
      rcases hlook : look (sKahnRun g).1 m with _ | d
      · rw [hlook] at hsome
        simp at hsome
      · have hd_pos : 0 < d := by
          rcases Nat.eq_zero_or_pos d with h0 | hpos
          · exfalso
            subst h0
            have hz := hinv.zero_found m (by rw [sInd0_keys]; exact hm) hlook
            rcases hz with hres | hq
            · exact hnocyc m hres hmcyc
            · exact absurd hq (List.not_mem_nil m)
          · exact hpos
        refine List.mem_map.mpr ⟨(m, d), ?_, rfl⟩
        rw [List.mem_filter]
        exact ⟨look_mem hlook, by simp [hd_pos]⟩

/-- Witness for C5 on `gTwoCycles`, whose cycle through the key `a` is
`a → b → a`. -/
theorem spec_c5_witness :
    (∃ ns, validate gTwoCycles = .error (.CycleDetected ns)) ∧
    (∃ ns, kahnSort gTwoCycles = .error (.CycleDetected ns) ∧
      ∀ m ∈ keysOf gTwoCycles.nodes,
        Relation.TransGen (LinkStep gTwoCycles) m m → m ∈ ns) :=
  spec_c5_cycle_detection gTwoCycles (by decide) "a" (by decide)
    (Relation.TransGen.head
      (show LinkStep gTwoCycles "a" "b" by unfold LinkStep; decide)
      (Relation.TransGen.single
        (show LinkStep gTwoCycles "b" "a" by unfold LinkStep; decide)))

/-! ## Claim C9 — determinism of the topological order -/

theorem mem_zeroKeys_iff {m : List (String × Nat)} (hnd : (keysOf m).Nodup) (x : String) :
    x ∈ (m.filter (fun p => p.2 = 0)).map Prod.fst ↔ look m x = some 0 := by
  constructor
  · intro hx
    rcases List.mem_map.mp hx with ⟨p, hp, hfst⟩
    rw [List.mem_filter] at hp
    obtain ⟨hpm, hp0⟩ := hp
    obtain ⟨k, v⟩ := p
    have hv : v = 0 := by simpa using hp0
    subst hv
    have hk : k = x := hfst
    subst hk
    exact look_of_mem_nodup hpm hnd
  · intro hx
    exact List.mem_map.mpr ⟨(x, 0), List.mem_filter.mpr ⟨look_mem hx, by simp⟩, rfl⟩

theorem zeroKeys_nodup {m : List (String × Nat)} (hnd : (keysOf m).Nodup) :
    ((m.filter (fun p => p.2 = 0)).map Prod.fst).Nodup := by
  have hsub := List.Sublist.map Prod.fst (List.filter_sublist
    (p := fun p => decide (p.2 = 0)) m)
  exact List.Nodup.sublist hsub hnd

theorem gInd0_look_perm (g : GraphDSL) (nodes2 : List (String × Node))
    (hperm : g.nodes.Perm nodes2) (k : String) :
    look (gInd0 ⟨nodes2, g.links⟩) k = look (gInd0 g) k := by
  have hmem : k ∈ keysOf g.nodes ↔ k ∈ keysOf nodes2 := (hperm.map Prod.fst).mem_iff
  show look (g.links.foldl (fun m l => bump m l.target.1) (initZero (keysOf nodes2))) k =
    look (g.links.foldl (fun m l => bump m l.target.1) (initZero (keysOf g.nodes))) k
  by_cases hk : k ∈ keysOf g.nodes
  · rw [foldl_bump_look_some g.links _ k 0 (look_initZero_mem (hmem.mp hk)),
        foldl_bump_look_some g.links _ k 0 (look_initZero_mem hk)]
  · have hk2 : k ∉ keysOf nodes2 := fun hc => hk (hmem.mpr hc)
    rw [foldl_bump_look_none g.links _ k (look_initZero_not hk2),
        foldl_bump_look_none g.links _ k (look_initZero_not hk)]

theorem gInd0_length_perm (g : GraphDSL) (nodes2 : List (String × Node))
    (hnd : (keysOf g.nodes).Nodup) (hperm : g.nodes.Perm nodes2) :
    (gInd0 ⟨nodes2, g.links⟩).length = (gInd0 g).length := by
  have hnd2 : (keysOf nodes2).Nodup := ((hperm.map Prod.fst).nodup_iff).mp hnd
  have hknd1 := gInd0_keys_nodup g hnd
  have hknd2 : (keysOf (gInd0 ⟨nodes2, g.links⟩)).Nodup :=
    gInd0_keys_nodup ⟨nodes2, g.links⟩ hnd2
  have hkperm : (keysOf (gInd0 ⟨nodes2, g.links⟩)).Perm (keysOf (gInd0 g)) := by
    rw [List.perm_ext_iff_of_nodup hknd2 hknd1]
    intro a
    rw [← look_isSome_iff, ← look_isSome_iff, gInd0_look_perm g nodes2 hperm a]
  have h1 : (keysOf (gInd0 ⟨nodes2, g.links⟩)).length = (gInd0 ⟨nodes2, g.links⟩).length :=
    List.length_map _ _
  have h2 : (keysOf (gInd0 g)).length = (gInd0 g).length := List.length_map _ _
  have h3 := hkperm.length_eq
  omega

theorem gQ0_perm_eq (g : GraphDSL) (nodes2 : List (String × Node))
    (hnd : (keysOf g.nodes).Nodup) (hperm : g.nodes.Perm nodes2) :
    gQ0 ⟨nodes2, g.links⟩ = gQ0 g := by
  have hnd2 : (keysOf nodes2).Nodup := ((hperm.map Prod.fst).nodup_iff).mp hnd
  have hknd1 := gInd0_keys_nodup g hnd
  have hknd2 : (keysOf (gInd0 ⟨nodes2, g.links⟩)).Nodup :=
    gInd0_keys_nodup ⟨nodes2, g.links⟩ hnd2
  have hzperm : (((gInd0 ⟨nodes2, g.links⟩).filter (fun p => p.2 = 0)).map Prod.fst).Perm
      (((gInd0 g).filter (fun p => p.2 = 0)).map Prod.fst) := by
    rw [List.perm_ext_iff_of_nodup (zeroKeys_nodup hknd2) (zeroKeys_nodup hknd1)]
    intro a
    rw [mem_zeroKeys_iff hknd2, mem_zeroKeys_iff hknd1, gInd0_look_perm g nodes2 hperm a]
  show List.insertionSort (fun a b => strLe a b)
      (((gInd0 ⟨nodes2, g.links⟩).filter (fun p => p.2 = 0)).map Prod.fst) =
    List.insertionSort (fun a b => strLe a b)
      (((gInd0 g).filter (fun p => p.2 = 0)).map Prod.fst)
  apply List.eq_of_perm_of_sorted (r := fun a b => strLe a b = true)
  · exact ((List.perm_insertionSort _ _).trans hzperm).trans
      (List.perm_insertionSort _ _).symm
  · exact List.sorted_insertionSort _ _
  · exact List.sorted_insertionSort _ _

theorem kahnStep_fold_eq (g : GraphDSL)
    (enq : List String → String → List String) :
    ∀ (cs : List String) (ind1 ind2 : List (String × Nat)) (q : List String),
      (∀ k, look ind1 k = look ind2 k) →
      (∀ k, look (cs.foldl (fun st child =>
          match look st.1 child with
          | some deg =>
            let d := deg - 1
            let ind1 := aupdate st.1 child d
            if d = 0 then (ind1, enq st.2 child) else (ind1, st.2)
          | none => st) (ind1, q)).1 k =
        look (cs.foldl (fun st child =>
          match look st.1 child with
          | some deg =>
            let d := deg - 1
            let ind1 := aupdate st.1 child d
            if d = 0 then (ind1, enq st.2 child) else (ind1, st.2)
          | none => st) (ind2, q)).1 k) ∧
      (cs.foldl (fun st child =>
          match look st.1 child with
          | some deg =>
            let d := deg - 1
            let ind1 := aupdate st.1 child d
            if d = 0 then (ind1, enq st.2 child) else (ind1, st.2)
          | none => st) (ind1, q)).2 =
        (cs.foldl (fun st child =>
          match look st.1 child with
          | some deg =>
            let d := deg - 1
            let ind1 := aupdate st.1 child d
            if d = 0 then (ind1, enq st.2 child) else (ind1, st.2)
          | none => st) (ind2, q)).2 := by
  intro cs
  induction cs with
  | nil =>
    intro ind1 ind2 q hl
    exact ⟨hl, rfl⟩
  | cons c rest ih =>
    intro ind1 ind2 q hl
    simp only [List.foldl_cons]
    have hc := hl c
    rcases hlk : look ind1 c with _ | deg
    · have hlk2 : look ind2 c = none := by rw [← hc, hlk]
      simp only [hlk, hlk2]
      exact ih ind1 ind2 q hl
    · have hlk2 : look ind2 c = some deg := by rw [← hc, hlk]
      simp only [hlk, hlk2]
      have hl1 : ∀ k, look (aupdate ind1 c (deg - 1)) k =
          look (aupdate ind2 c (deg - 1)) k := by
        intro k
        by_cases hkc : k = c
        · subst hkc
          rw [look_aupdate_self _ hlk, look_aupdate_self _ hlk2]
        · rw [look_aupdate_other _ hkc, look_aupdate_other _ hkc]
          exact hl k
      by_cases hd : deg - 1 = 0
      · simp only [if_pos hd]
        exact ih _ _ _ hl1
      · simp only [if_neg hd]
        exact ih _ _ _ hl1

theorem kahnStep_look_eq (g : GraphDSL) (enq : List String → String → List String)
    (node_id : String) (ind1 ind2 : List (String × Nat)) (q : List String)
    (hl : ∀ k, look ind1 k = look ind2 k) :
    (∀ k, look (kahnStep g enq ind1 q node_id).1 k =
      look (kahnStep g enq ind2 q node_id).1 k) ∧
    (kahnStep g enq ind1 q node_id).2 = (kahnStep g enq ind2 q node_id).2 :=
  kahnStep_fold_eq g enq (getChildren g node_id) ind1 ind2 q hl

theorem kahnLoop_eq (g : GraphDSL) (deq : List String → Option (String × List String))
    (enq : List String → String → List String) :
    ∀ (fuel : Nat) (ind1 ind2 : List (String × Nat)) (q res : List String),
      (∀ k, look ind1 k = look ind2 k) →
      (kahnLoop g deq enq fuel ind1 q res).2 =
        (kahnLoop g deq enq fuel ind2 q res).2 := by
  intro fuel
  induction fuel with
  | zero =>
    intro ind1 ind2 q res _
    rfl
  | succ fuel ih =>
    intro ind1 ind2 q res hl
    rcases hdq : deq q with _ | pair
    · simp only [kahnLoop, hdq]
    · obtain ⟨node_id, q1⟩ := pair
      simp only [kahnLoop, hdq]
      obtain ⟨hl2, hq2⟩ := kahnStep_look_eq g enq node_id ind1 ind2 q1 hl
      rw [hq2]
      exact ih _ _ _ _ hl2

theorem kahnLoop_graph_eq (g1 g2 : GraphDSL)
    (hc : ∀ n, getChildren g2 n = getChildren g1 n)
    (deq : List String → Option (String × List String))
    (enq : List String → String → List String) :
    ∀ (fuel : Nat) (ind : List (String × Nat)) (q res : List String),
      kahnLoop g2 deq enq fuel ind q res = kahnLoop g1 deq enq fuel ind q res := by
  have hstep : ∀ ind q n, kahnStep g2 enq ind q n = kahnStep g1 enq ind q n := by
    intro ind q n
    unfold kahnStep
    rw [hc n]
  intro fuel
  induction fuel with
  | zero =>
    intro ind q res
    rfl
  | succ fuel ih =>
    intro ind q res
    rcases hdq : deq q with _ | pair
    · simp only [kahnLoop, hdq]
    · obtain ⟨node_id, q1⟩ := pair
      simp only [kahnLoop, hdq, hstep]
      exact ih _ _ _

theorem checkLinksExist_eq (g : GraphDSL) (nodes2 : List (String × Node))
    (hperm : g.nodes.Perm nodes2) :
    ∀ ls : List Link, checkLinksExist ⟨nodes2, g.links⟩ ls = checkLinksExist g ls := by
  have hb : ∀ k, (look nodes2 k).isSome = (look g.nodes k).isSome := by
    intro k
    have hm := (hperm.map Prod.fst).mem_iff (a := k)
    cases h1 : (look nodes2 k).isSome with
    | true =>
      cases h2 : (look g.nodes k).isSome with
      | true => rfl
      | false =>
        exfalso
        have hk2 : k ∈ keysOf nodes2 := (look_isSome_iff _ _).mp h1
        have hk1 : k ∈ keysOf g.nodes := hm.mpr hk2
        have h3 := (look_isSome_iff g.nodes k).mpr hk1
        rw [h2] at h3
        exact Bool.noConfusion h3
    | false =>
      cases h2 : (look g.nodes k).isSome with
      | false => rfl
      | true =>
        exfalso
        have hk1 : k ∈ keysOf g.nodes := (look_isSome_iff _ _).mp h2
        have hk2 : k ∈ keysOf nodes2 := hm.mp hk1
        have h3 := (look_isSome_iff nodes2 k).mpr hk2
        rw [h1] at h3
        exact Bool.noConfusion h3
  intro ls
  induction ls with
  | nil => rfl
  | cons l rest ih =>
    simp only [checkLinksExist, hb, ih]

/-- C9 counterexample: on `gIso` (two isolated ready nodes `a`, `b` with
`strLe "a" "b"`), `topological_sort` pops the back of the sorted ready
vector and returns `["b", "a"]` — the lexicographically greatest ready
node first, not the least — and `kahn_sort`, which never sorts, returns
`["a", "b"]` for the stored node order but `["b", "a"]` once the node
map's iteration order is reversed, so its output is not determined by
the graph alone. -/
theorem spec_c9_counterexample :
    topologicalSort gIso = .ok ["b", "a"] ∧
    strLe "a" "b" = true ∧
    kahnSort gIso = .ok ["a", "b"] ∧
    gIso.nodes.Perm gIso.nodes.reverse ∧
    kahnSort ⟨gIso.nodes.reverse, gIso.links⟩ = .ok ["b", "a"] := by
  decide

/-- C9 amended: for acyclic graphs with duplicate-free node keys,
`GraphDSL::topological_sort` is deterministic — its result is invariant
under any permutation of the node map's stored (iteration) order, ties
being resolved by the sorted ready vector independently of that order. -/
theorem spec_c9_determinism (g : GraphDSL) (nodes2 : List (String × Node))
    (hnd : (keysOf g.nodes).Nodup)
    (hacyc : Acyclic g)
    (hperm : g.nodes.Perm nodes2) :
    topologicalSort ⟨nodes2, g.links⟩ = topologicalSort g := by
  have hdet1 := detectCycles_ok_of_acyclic g hacyc
  have hdet2 : detectCycles (⟨nodes2, g.links⟩ : GraphDSL) = .ok () :=
    detectCycles_ok_of_acyclic _ (fun s hs => hacyc s hs)
  have hcle := checkLinksExist_eq g nodes2 hperm
  have hval : validate (⟨nodes2, g.links⟩ : GraphDSL) = validate g := by
    simp only [validate, hdet2, hdet1, hcle]
  have hrun : (gKahnRun (⟨nodes2, g.links⟩ : GraphDSL)).2 = (gKahnRun g).2 := by
    have hgl := kahnLoop_graph_eq g ⟨nodes2, g.links⟩ (fun n => rfl) popBack enqSorted
    show (kahnLoop ⟨nodes2, g.links⟩ popBack enqSorted
        ((gInd0 ⟨nodes2, g.links⟩).length + 1) (gInd0 ⟨nodes2, g.links⟩)
        (gQ0 ⟨nodes2, g.links⟩) []).2 =
      (kahnLoop g popBack enqSorted ((gInd0 g).length + 1) (gInd0 g) (gQ0 g) []).2
    rw [hgl, gInd0_length_perm g nodes2 hnd hperm, gQ0_perm_eq g nodes2 hnd hperm]
    exact kahnLoop_eq g popBack enqSorted ((gInd0 g).length + 1)
      (gInd0 ⟨nodes2, g.links⟩) (gInd0 g) (gQ0 g) [] (gInd0_look_perm g nodes2 hperm)
  rcases hv : validate g with e | u
  · show (match validate (⟨nodes2, g.links⟩ : GraphDSL) with
      | Except.error e => (Except.error e : Except ValidationError (List String))
      | Except.ok _ =>
        if (gKahnRun (⟨nodes2, g.links⟩ : GraphDSL)).2.length = nodes2.length
        then Except.ok (gKahnRun (⟨nodes2, g.links⟩ : GraphDSL)).2
        else Except.error (ValidationError.CycleDetected ["unknown"])) = topologicalSort g
    rw [hval, hv]
    show Except.error e = topologicalSort g
    unfold topologicalSort
    rw [hv]
  · show (match validate (⟨nodes2, g.links⟩ : GraphDSL) with
      | Except.error e => (Except.error e : Except ValidationError (List String))
      | Except.ok _ =>
        if (gKahnRun (⟨nodes2, g.links⟩ : GraphDSL)).2.length = nodes2.length
        then Except.ok (gKahnRun (⟨nodes2, g.links⟩ : GraphDSL)).2
        else Except.error (ValidationError.CycleDetected ["unknown"])) = topologicalSort g
    rw [hval, hv]
    show (if (gKahnRun (⟨nodes2, g.links⟩ : GraphDSL)).2.length = nodes2.length
        then (Except.ok (gKahnRun (⟨nodes2, g.links⟩ : GraphDSL)).2 :
          Except ValidationError (List String))
        else Except.error (ValidationError.CycleDetected ["unknown"])) = topologicalSort g
    unfold topologicalSort
    rw [hv]
    show (if (gKahnRun (⟨nodes2, g.links⟩ : GraphDSL)).2.length = nodes2.length
        then (Except.ok (gKahnRun (⟨nodes2, g.links⟩ : GraphDSL)).2 :
          Except ValidationError (List String))
        else Except.error (ValidationError.CycleDetected ["unknown"])) =
      (if (gKahnRun g).2.length = g.nodes.length
        then Except.ok (gKahnRun g).2
        else Except.error (ValidationError.CycleDetected ["unknown"]))
    simp only [hrun, ← hperm.length_eq]

/-- Witness for C9: reversing the stored node order of the two-node
chain leaves the produced topological order unchanged. -/
theorem spec_c9_witness :
    topologicalSort ⟨gChainNM.nodes.reverse, gChainNM.links⟩ = topologicalSort gChainNM :=
  spec_c9_determinism gChainNM gChainNM.nodes.reverse (by decide)
    (acyclic_of_rank gChainNM (fun s => if s = "m" then 1 else 0) (by decide))
    (by decide)
